import Mathlib

set_option maxRecDepth 40000

/-!
Verification of the Reed-Solomon codec in `src/reed_solomon.rs`.

The codec works over GF(2^8).  The field arithmetic itself comes from the
external `gf256` crate (treated by the specification as an external
collaborator), with reduction polynomial 0x11d and generator 2; it is
modelled here at the `Nat` level and wrapped in the `GF` type below.
All Reed-Solomon routines (`encode`, `find_syndromes`, `find_error_locator`,
`correct_errors`, ...) are translated from the source file.
-/

/-- Modelled from the spec: the doubling step of carry-less multiplication in
GF(2^8) with reduction polynomial 0x11d (the `gf256` crate's field). -/
def xtimeNat (a : Nat) : Nat := if a < 128 then 2 * a else (2 * a) ^^^ 285

/-- Modelled from the spec: russian-peasant multiplication over the 8 bits of
the second operand. -/
def goMul : Nat → Nat → Nat → Nat
  | 0, _, _ => 0
  | k+1, a, b => (if b % 2 = 1 then a else 0) ^^^ goMul k (xtimeNat a) (b / 2)

/-- Modelled from the spec: multiplication in GF(2^8), polynomial 0x11d. -/
def mulNat (a b : Nat) : Nat := goMul 8 a b

/-- Powers of the generator 2 of GF(2^8): entry k is 2 to the k in the field. -/
def gfExpTable : List Nat := [1, 2, 4, 8, 16, 32, 64, 128, 29, 58, 116, 232, 205, 135, 19, 38, 76, 152, 45, 90, 180, 117, 234, 201, 143, 3, 6, 12, 24, 48, 96, 192, 157, 39, 78, 156, 37, 74, 148, 53, 106, 212, 181, 119, 238, 193, 159, 35, 70, 140, 5, 10, 20, 40, 80, 160, 93, 186, 105, 210, 185, 111, 222, 161, 95, 190, 97, 194, 153, 47, 94, 188, 101, 202, 137, 15, 30, 60, 120, 240, 253, 231, 211, 187, 107, 214, 177, 127, 254, 225, 223, 163, 91, 182, 113, 226, 217, 175, 67, 134, 17, 34, 68, 136, 13, 26, 52, 104, 208, 189, 103, 206, 129, 31, 62, 124, 248, 237, 199, 147, 59, 118, 236, 197, 151, 51, 102, 204, 133, 23, 46, 92, 184, 109, 218, 169, 79, 158, 33, 66, 132, 21, 42, 84, 168, 77, 154, 41, 82, 164, 85, 170, 73, 146, 57, 114, 228, 213, 183, 115, 230, 209, 191, 99, 198, 145, 63, 126, 252, 229, 215, 179, 123, 246, 241, 255, 227, 219, 171, 75, 150, 49, 98, 196, 149, 55, 110, 220, 165, 87, 174, 65, 130, 25, 50, 100, 200, 141, 7, 14, 28, 56, 112, 224, 221, 167, 83, 166, 81, 162, 89, 178, 121, 242, 249, 239, 195, 155, 43, 86, 172, 69, 138, 9, 18, 36, 72, 144, 61, 122, 244, 245, 247, 243, 251, 235, 203, 139, 11, 22, 44, 88, 176, 125, 250, 233, 207, 131, 27, 54, 108, 216, 173, 71, 142]

/-- Discrete logarithms base 2 in GF(2^8) (entry 0 is unused padding). -/
def gfLogTable : List Nat := [0, 0, 1, 25, 2, 50, 26, 198, 3, 223, 51, 238, 27, 104, 199, 75, 4, 100, 224, 14, 52, 141, 239, 129, 28, 193, 105, 248, 200, 8, 76, 113, 5, 138, 101, 47, 225, 36, 15, 33, 53, 147, 142, 218, 240, 18, 130, 69, 29, 181, 194, 125, 106, 39, 249, 185, 201, 154, 9, 120, 77, 228, 114, 166, 6, 191, 139, 98, 102, 221, 48, 253, 226, 152, 37, 179, 16, 145, 34, 136, 54, 208, 148, 206, 143, 150, 219, 189, 241, 210, 19, 92, 131, 56, 70, 64, 30, 66, 182, 163, 195, 72, 126, 110, 107, 58, 40, 84, 250, 133, 186, 61, 202, 94, 155, 159, 10, 21, 121, 43, 78, 212, 229, 172, 115, 243, 167, 87, 7, 112, 192, 247, 140, 128, 99, 13, 103, 74, 222, 237, 49, 197, 254, 24, 227, 165, 153, 119, 38, 184, 180, 124, 17, 68, 146, 217, 35, 32, 137, 46, 55, 63, 209, 91, 149, 188, 207, 205, 144, 135, 151, 178, 220, 252, 190, 97, 242, 86, 211, 171, 20, 42, 93, 158, 132, 60, 57, 83, 71, 109, 65, 162, 31, 45, 67, 216, 183, 123, 164, 118, 196, 23, 73, 236, 127, 12, 111, 246, 108, 161, 59, 82, 41, 157, 85, 170, 251, 96, 134, 177, 187, 204, 62, 90, 203, 89, 95, 176, 156, 169, 160, 81, 11, 245, 22, 235, 122, 117, 44, 215, 79, 174, 213, 233, 230, 231, 173, 232, 116, 214, 244, 234, 168, 80, 88, 175]

def expT (k : Nat) : Nat := gfExpTable.getD k 0

def logT (a : Nat) : Nat := gfLogTable.getD a 0

/-- Table form of GF(2^8) multiplication, used to derive the ring axioms. -/
def tabMul (a b : Nat) : Nat :=
  if a = 0 ∨ b = 0 then 0 else expT ((logT a + logT b) % 255)

theorem xor_left_comm_nat (a b c : Nat) : a ^^^ (b ^^^ c) = b ^^^ (a ^^^ c) := by
  rw [← Nat.xor_assoc, Nat.xor_comm a b, Nat.xor_assoc]

theorem xor4_nat (a b c d : Nat) :
    (a ^^^ b) ^^^ (c ^^^ d) = (a ^^^ c) ^^^ (b ^^^ d) := by
  rw [Nat.xor_assoc, xor_left_comm_nat b c d, ← Nat.xor_assoc]

theorem xtimeNat_zero : xtimeNat 0 = 0 := by decide

theorem xtimeNat_lt : ∀ a, a < 256 → xtimeNat a < 256 := by decide

theorem xor_lt_pow2 {n a b : Nat} (ha : a < 2 ^ n) (hb : b < 2 ^ n) :
    a ^^^ b < 2 ^ n :=
  Nat.bitwise_lt ha hb

theorem xorNat_lt : ∀ a, a < 256 → ∀ b, b < 256 → a ^^^ b < 256 := by
  intro a ha b hb
  exact xor_lt_pow2 (n := 8) ha hb

theorem xor_high_bit : ∀ a, a < 256 → 128 ≤ a → a ^^^ 128 < 128 := by decide

theorem two_mul_xor (a b : Nat) : 2 * (a ^^^ b) = 2 * a ^^^ 2 * b := by
  have h := Nat.xor_bit false a false b
  simpa [Nat.bit] using h.symm

theorem xtimeNat_xor : ∀ a, a < 256 → ∀ b, b < 256 →
    xtimeNat (a ^^^ b) = xtimeNat a ^^^ xtimeNat b := by
  intro a ha b hb
  by_cases ha7 : a < 128 <;> by_cases hb7 : b < 128
  · have hab : a ^^^ b < 128 := xor_lt_pow2 (n := 7) ha7 hb7
    simp [xtimeNat, ha7, hb7, hab, two_mul_xor]
  · have hab : ¬ a ^^^ b < 128 := by
      intro h
      have : b < 128 := by
        have hb' : b = a ^^^ (a ^^^ b) := (Nat.xor_cancel_left a b).symm
        rw [hb']
        exact xor_lt_pow2 (n := 7) ha7 h
      exact hb7 this
    simp only [xtimeNat, if_pos ha7, if_neg hb7, if_neg hab]
    rw [two_mul_xor, Nat.xor_assoc]
  · have hab : ¬ a ^^^ b < 128 := by
      intro h
      have : a < 128 := by
        have ha' : a = (a ^^^ b) ^^^ b := by
          rw [Nat.xor_assoc, Nat.xor_self, Nat.xor_zero]
        rw [ha']
        exact xor_lt_pow2 (n := 7) h hb7
      exact ha7 this
    simp only [xtimeNat, if_neg ha7, if_pos hb7, if_neg hab]
    rw [two_mul_xor, Nat.xor_assoc, Nat.xor_comm (2 * b) 285, ← Nat.xor_assoc]
  · have h1 : a ^^^ 128 < 128 := xor_high_bit a ha (Nat.le_of_not_lt ha7)
    have h2 : b ^^^ 128 < 128 := xor_high_bit b hb (Nat.le_of_not_lt hb7)
    have hre : a ^^^ b = (a ^^^ 128) ^^^ (b ^^^ 128) := by
      rw [xor4_nat, Nat.xor_self, Nat.xor_zero]
    have hab : a ^^^ b < 128 := by
      rw [hre]
      exact xor_lt_pow2 (n := 7) h1 h2
    simp only [xtimeNat, if_neg ha7, if_neg hb7, if_pos hab]
    rw [two_mul_xor, xor4_nat, Nat.xor_self, Nat.xor_zero]

theorem goMul_zero_b : ∀ k a, goMul k a 0 = 0
  | 0, _ => rfl
  | k+1, a => by simp [goMul, goMul_zero_b k]

theorem goMul_zero_a : ∀ k b, goMul k 0 b = 0
  | 0, _ => rfl
  | k+1, b => by simp [goMul, xtimeNat_zero, goMul_zero_a k]

theorem goMul_lt : ∀ k a b, a < 256 → goMul k a b < 256
  | 0, _, _, _ => by simp [goMul]
  | k+1, a, b, ha => by
    have h1 : (if b % 2 = 1 then a else 0) < 256 := by split <;> omega
    exact xorNat_lt _ h1 _ (goMul_lt k _ (b / 2) (xtimeNat_lt a ha))

theorem goMul_xtime : ∀ k a b, a < 256 →
    goMul k (xtimeNat a) b = xtimeNat (goMul k a b)
  | 0, a, b, _ => by simp [goMul, xtimeNat_zero]
  | k+1, a, b, ha => by
    have hxa : xtimeNat a < 256 := xtimeNat_lt a ha
    have hif : (if b % 2 = 1 then a else 0) < 256 := by split <;> omega
    have hg : goMul k (xtimeNat a) (b / 2) < 256 := goMul_lt k _ _ hxa
    calc goMul (k+1) (xtimeNat a) b
        = (if b % 2 = 1 then xtimeNat a else 0) ^^^
            goMul k (xtimeNat (xtimeNat a)) (b / 2) := rfl
      _ = (if b % 2 = 1 then xtimeNat a else 0) ^^^
            xtimeNat (goMul k (xtimeNat a) (b / 2)) := by
            rw [goMul_xtime k _ _ hxa]
      _ = xtimeNat (if b % 2 = 1 then a else 0) ^^^
            xtimeNat (goMul k (xtimeNat a) (b / 2)) := by
            congr 1
            split <;> simp [xtimeNat_zero]
      _ = xtimeNat ((if b % 2 = 1 then a else 0) ^^^
            goMul k (xtimeNat a) (b / 2)) := by
            rw [xtimeNat_xor _ hif _ hg]
      _ = xtimeNat (goMul (k+1) a b) := rfl

theorem goMul_xor_left : ∀ k a₁ a₂ b, a₁ < 256 → a₂ < 256 →
    goMul k (a₁ ^^^ a₂) b = goMul k a₁ b ^^^ goMul k a₂ b
  | 0, _, _, _, _, _ => by simp [goMul]
  | k+1, a₁, a₂, b, h₁, h₂ => by
    have hx₁ : xtimeNat a₁ < 256 := xtimeNat_lt a₁ h₁
    have hx₂ : xtimeNat a₂ < 256 := xtimeNat_lt a₂ h₂
    calc goMul (k+1) (a₁ ^^^ a₂) b
        = (if b % 2 = 1 then a₁ ^^^ a₂ else 0) ^^^
            goMul k (xtimeNat (a₁ ^^^ a₂)) (b / 2) := rfl
      _ = (if b % 2 = 1 then a₁ ^^^ a₂ else 0) ^^^
            (goMul k (xtimeNat a₁) (b / 2) ^^^ goMul k (xtimeNat a₂) (b / 2)) := by
            rw [xtimeNat_xor _ h₁ _ h₂, goMul_xor_left k _ _ _ hx₁ hx₂]
      _ = ((if b % 2 = 1 then a₁ else 0) ^^^ (if b % 2 = 1 then a₂ else 0)) ^^^
            (goMul k (xtimeNat a₁) (b / 2) ^^^ goMul k (xtimeNat a₂) (b / 2)) := by
            congr 1
            split <;> simp
      _ = goMul (k+1) a₁ b ^^^ goMul (k+1) a₂ b := xor4_nat _ _ _ _

theorem one_mulNat : ∀ b, b < 256 → mulNat 1 b = b := by decide

theorem expT_lt : ∀ k, k < 255 → expT k < 256 := by decide

theorem expT_ne : ∀ k, k < 255 → expT k ≠ 0 := by decide

theorem logT_expT : ∀ k, k < 255 → logT (expT k) = k := by decide

theorem expT_logT : ∀ a, a < 256 → a ≠ 0 → expT (logT a) = a := by decide

theorem logT_lt : ∀ a, a < 256 → a ≠ 0 → logT a < 255 := by decide

theorem xtime_expT : ∀ k, k < 255 → xtimeNat (expT k) = expT ((k + 1) % 255) := by decide

theorem expT_zero : expT 0 = 1 := rfl

theorem mulNat_expT : ∀ i, i < 255 → ∀ j, j < 255 →
    mulNat (expT i) (expT j) = expT ((i + j) % 255) := by
  intro i
  induction i with
  | zero =>
    intro _ j hj
    rw [expT_zero, one_mulNat _ (expT_lt j hj), Nat.zero_add, Nat.mod_eq_of_lt hj]
  | succ i ih =>
    intro hi j hj
    have hi' : i < 255 := Nat.lt_of_succ_lt hi
    have he : expT (i + 1) = xtimeNat (expT i) := by
      rw [xtime_expT i hi', Nat.mod_eq_of_lt hi]
    rw [he, mulNat, goMul_xtime 8 _ _ (expT_lt i hi'), ← mulNat]
    rw [ih hi' j hj]
    rw [xtime_expT _ (Nat.mod_lt _ (by omega))]
    congr 1
    omega

theorem mulNat_eq_tab : ∀ a b, a < 256 → b < 256 → mulNat a b = tabMul a b := by
  intro a b ha hb
  by_cases h0 : a = 0
  · subst h0; simp [mulNat, goMul_zero_a, tabMul]
  by_cases h1 : b = 0
  · subst h1; simp [mulNat, goMul_zero_b, tabMul, h0]
  have hla := logT_lt a ha h0
  have hlb := logT_lt b hb h1
  have h := mulNat_expT (logT a) hla (logT b) hlb
  rw [expT_logT a ha h0, expT_logT b hb h1] at h
  rw [h, tabMul, if_neg (by simp [h0, h1])]

/-- Modelled from the spec: the external collaborator field type GF(2^8)
(a byte together with the invariant that it is a byte). -/
structure GF where
  val : Nat
  isLt : val < 256

theorem GF.ext_val : ∀ {a b : GF}, a.val = b.val → a = b := by
  intro a b h
  cases a
  cases b
  simp only at h
  subst h
  rfl

instance : DecidableEq GF := fun a b =>
  if h : a.val = b.val then isTrue (GF.ext_val h)
  else isFalse (fun e => h (congrArg GF.val e))

def gzero : GF := ⟨0, by omega⟩

def gone : GF := ⟨1, by omega⟩

/-- Modelled from the spec: `gf256::GENERATOR`, the primitive element 2. -/
def ggen : GF := ⟨2, by omega⟩

/-- Modelled from the spec: field addition is bytewise xor. -/
def gadd (a b : GF) : GF := ⟨a.val ^^^ b.val, xorNat_lt _ a.isLt _ b.isLt⟩

/-- Modelled from the spec: field multiplication. -/
def gmul (a b : GF) : GF := ⟨mulNat a.val b.val, goMul_lt 8 _ _ a.isLt⟩

/-- Modelled from the spec: negation is the identity in characteristic two. -/
def gneg (a : GF) : GF := a

/-- Modelled from the spec: subtraction coincides with addition. -/
def gsub (a b : GF) : GF := gadd a b

/-- Modelled from the spec: the multiplicative inverse (zero maps to zero). -/
def grecip (a : GF) : GF :=
  if a.val = 0 then gzero
  else ⟨expT ((255 - logT a.val) % 255), expT_lt _ (Nat.mod_lt _ (by omega))⟩

/-- Modelled from the spec: the `/` operator (callers never divide by zero). -/
def gdivOp (a b : GF) : GF := gmul a (grecip b)

/-- Modelled from the spec: `checked_div`, `none` exactly on a zero divisor. -/
def gcheckedDiv (a b : GF) : Option GF :=
  if b.val = 0 then none else some (gmul a (grecip b))

/-- Modelled from the spec: exponentiation `pow` by repeated multiplication. -/
def gpow (a : GF) : Nat → GF
  | 0 => gone
  | n+1 => gmul a (gpow a n)

instance : Zero GF := ⟨gzero⟩

instance : One GF := ⟨gone⟩

instance : Add GF := ⟨gadd⟩

instance : Mul GF := ⟨gmul⟩

instance : Neg GF := ⟨gneg⟩

instance : Sub GF := ⟨gsub⟩

theorem gf_val_add (a b : GF) : (a + b).val = a.val ^^^ b.val := rfl

theorem gf_val_mul (a b : GF) : (a * b).val = mulNat a.val b.val := rfl

theorem gf_val_zero : (0 : GF).val = 0 := rfl

theorem gf_val_one : (1 : GF).val = 1 := rfl

theorem gadd_def (a b : GF) : gadd a b = a + b := rfl

theorem gmul_def (a b : GF) : gmul a b = a * b := rfl

theorem gneg_def (a : GF) : gneg a = a := rfl

theorem gsub_def (a b : GF) : gsub a b = a + b := rfl

theorem gf_mul_comm (a b : GF) : a * b = b * a := by
  apply GF.ext_val
  rw [gf_val_mul, gf_val_mul, mulNat_eq_tab _ _ a.isLt b.isLt,
    mulNat_eq_tab _ _ b.isLt a.isLt]
  unfold tabMul
  rw [Nat.add_comm]
  by_cases h1 : a.val = 0 <;> by_cases h2 : b.val = 0 <;> simp [h1, h2]

theorem gf_mul_assoc (a b c : GF) : a * b * c = a * (b * c) := by
  apply GF.ext_val
  rw [gf_val_mul, gf_val_mul, gf_val_mul, gf_val_mul]
  rw [mulNat_eq_tab _ _ a.isLt b.isLt, mulNat_eq_tab _ _ b.isLt c.isLt]
  have htab_lt : ∀ x y : Nat, x < 256 → tabMul x y < 256 := by
    intro x y hx
    unfold tabMul
    split
    · omega
    · exact expT_lt _ (Nat.mod_lt _ (by omega))
  rw [mulNat_eq_tab _ _ (htab_lt _ _ a.isLt) c.isLt,
    mulNat_eq_tab _ _ a.isLt (htab_lt _ _ b.isLt)]
  by_cases h1 : a.val = 0
  · simp [tabMul, h1]
  by_cases h2 : b.val = 0
  · simp [tabMul, h1, h2]
  by_cases h3 : c.val = 0
  · simp [tabMul, h1, h2, h3]
  have e12 : tabMul a.val b.val = expT ((logT a.val + logT b.val) % 255) := by
    simp [tabMul, h1, h2]
  have e23 : tabMul b.val c.val = expT ((logT b.val + logT c.val) % 255) := by
    simp [tabMul, h2, h3]
  have hm12 : (logT a.val + logT b.val) % 255 < 255 := Nat.mod_lt _ (by omega)
  have hm23 : (logT b.val + logT c.val) % 255 < 255 := Nat.mod_lt _ (by omega)
  rw [e12, e23]
  rw [tabMul, if_neg (by simp [expT_ne _ hm12, h3]), tabMul,
    if_neg (by simp [expT_ne _ hm23, h1])]
  rw [logT_expT _ hm12, logT_expT _ hm23]
  congr 1
  omega

theorem gf_one_mul (a : GF) : 1 * a = a :=
  GF.ext_val (one_mulNat _ a.isLt)

theorem gf_mul_one (a : GF) : a * 1 = a := by
  rw [gf_mul_comm]
  exact gf_one_mul a

theorem gf_zero_mul (a : GF) : 0 * a = 0 :=
  GF.ext_val (goMul_zero_a 8 a.val)

theorem gf_mul_zero (a : GF) : a * 0 = 0 :=
  GF.ext_val (goMul_zero_b 8 a.val)

theorem gf_right_distrib (a b c : GF) : (a + b) * c = a * c + b * c :=
  GF.ext_val (goMul_xor_left 8 a.val b.val c.val a.isLt b.isLt)

theorem gf_left_distrib (a b c : GF) : a * (b + c) = a * b + a * c := by
  rw [gf_mul_comm, gf_right_distrib, gf_mul_comm b a, gf_mul_comm c a]

theorem gf_add_assoc (a b c : GF) : a + b + c = a + (b + c) :=
  GF.ext_val (Nat.xor_assoc _ _ _)

theorem gf_add_comm (a b : GF) : a + b = b + a :=
  GF.ext_val (Nat.xor_comm _ _)

theorem gf_zero_add (a : GF) : 0 + a = a :=
  GF.ext_val (Nat.zero_xor _)

theorem gf_add_zero (a : GF) : a + 0 = a :=
  GF.ext_val (Nat.xor_zero _)

theorem gf_add_self (a : GF) : a + a = 0 :=
  GF.ext_val (Nat.xor_self _)

instance : CommRing GF where
  nsmul := nsmulRec
  zsmul := zsmulRec
  add_assoc := gf_add_assoc
  zero_add := gf_zero_add
  add_zero := gf_add_zero
  add_comm := gf_add_comm
  left_distrib := gf_left_distrib
  right_distrib := gf_right_distrib
  zero_mul := gf_zero_mul
  mul_zero := gf_mul_zero
  mul_assoc := gf_mul_assoc
  one_mul := gf_one_mul
  mul_one := gf_mul_one
  neg_add_cancel := gf_add_self
  mul_comm := gf_mul_comm
  sub_eq_add_neg := fun _ _ => rfl

theorem gf_val_ne_zero {a : GF} (h : a ≠ 0) : a.val ≠ 0 := by
  intro hv
  exact h (GF.ext_val hv)

theorem gf_ne_zero_of_val {a : GF} (h : a.val ≠ 0) : a ≠ 0 := by
  intro e
  rw [e] at h
  exact h rfl

theorem mul_grecip_cancel (a : GF) (h : a ≠ 0) : a * grecip a = 1 := by
  have hv : a.val ≠ 0 := gf_val_ne_zero h
  have hla : logT a.val < 255 := logT_lt _ a.isLt hv
  apply GF.ext_val
  rw [gf_val_mul]
  show mulNat a.val (grecip a).val = 1
  rw [grecip, if_neg hv]
  show mulNat a.val (expT ((255 - logT a.val) % 255)) = 1
  have key := mulNat_expT (logT a.val) hla ((255 - logT a.val) % 255)
    (Nat.mod_lt _ (by omega))
  rw [expT_logT a.val a.isLt hv] at key
  rw [key]
  have h2 : (logT a.val + (255 - logT a.val) % 255) % 255 = 0 := by omega
  rw [h2]
  rfl

theorem grecip_val_zero : grecip 0 = 0 := rfl

theorem grecip_ne_zero (a : GF) (h : a ≠ 0) : grecip a ≠ 0 := by
  intro e
  have h1 := mul_grecip_cancel a h
  rw [e, gf_mul_zero] at h1
  exact absurd (congrArg GF.val h1) (by decide)

theorem gf_mul_left_cancel {a b c : GF} (ha : a ≠ 0) (h : a * b = a * c) : b = c := by
  have := congrArg (fun x => grecip a * x) h
  simp only [← mul_assoc] at this
  rw [mul_comm (grecip a) a, mul_grecip_cancel a ha, one_mul, one_mul] at this
  exact this

theorem gmul_eq_one_iff (a b : GF) (ha : a ≠ 0) : a * b = 1 ↔ b = grecip a := by
  constructor
  · intro h
    apply gf_mul_left_cancel ha
    rw [h, mul_grecip_cancel a ha]
  · intro h
    rw [h, mul_grecip_cancel a ha]

def gfexp (k : Nat) : GF := ⟨expT (k % 255), expT_lt _ (Nat.mod_lt _ (by omega))⟩

theorem gfexp_val (k : Nat) : (gfexp k).val = expT (k % 255) := rfl

theorem gpow_ggen (n : Nat) : gpow ggen n = gfexp n := by
  induction n with
  | zero => rfl
  | succ n ih =>
    show gmul ggen (gpow ggen n) = gfexp (n + 1)
    rw [ih]
    apply GF.ext_val
    show mulNat 2 (expT (n % 255)) = expT ((n + 1) % 255)
    have h2 : (2 : Nat) = expT 1 := rfl
    rw [h2, mulNat_expT 1 (by omega) _ (Nat.mod_lt _ (by omega))]
    congr 1
    omega

theorem gfexp_ne_zero (k : Nat) : gfexp k ≠ 0 := by
  apply gf_ne_zero_of_val
  exact expT_ne _ (Nat.mod_lt _ (by omega))

theorem gfexp_inj {i j : Nat} (hi : i < 255) (hj : j < 255)
    (h : gfexp i = gfexp j) : i = j := by
  have hv : expT i = expT j := by
    have := congrArg GF.val h
    rwa [gfexp_val, gfexp_val, Nat.mod_eq_of_lt hi, Nat.mod_eq_of_lt hj] at this
  have := congrArg logT hv
  rwa [logT_expT _ hi, logT_expT _ hj] at this

theorem gfexp_mul (a b : Nat) : gfexp a * gfexp b = gfexp (a + b) := by
  apply GF.ext_val
  rw [gf_val_mul, gfexp_val, gfexp_val, gfexp_val]
  rw [mulNat_expT _ (Nat.mod_lt _ (by omega)) _ (Nat.mod_lt _ (by omega))]
  congr 1
  rw [← Nat.add_mod]

theorem gpow_eq_pow (a : GF) (n : Nat) : gpow a n = a ^ n := by
  induction n with
  | zero =>
    rw [pow_zero]
    rfl
  | succ n ih =>
    show gmul a (gpow a n) = a ^ (n + 1)
    rw [ih, gmul_def, pow_succ, mul_comm a (a ^ n)]

theorem gpow_gfexp (e n : Nat) : gpow (gfexp e) n = gfexp (e * n) := by
  induction n with
  | zero => rfl
  | succ n ih =>
    show gmul (gfexp e) (gpow (gfexp e) n) = gfexp (e * (n + 1))
    rw [ih, gmul_def, gfexp_mul]
    congr 1
    ring

/-- Constant from the source: number of data bytes in a full block. -/
def DATA_SIZE : Nat := 223

/-- Constant from the source: number of parity bytes. -/
def ECC_SIZE : Nat := 32

/-- Constant from the source: total block size. -/
def BLOCK_SIZE : Nat := DATA_SIZE + ECC_SIZE

/-- The generator polynomial, built exactly as the `const` block in the
source: start from x^0 coefficient 1 and repeatedly multiply by
(x - generator^i), coefficients stored big-endian. -/
def GENERATOR_POLY : List GF :=
  (List.range ECC_SIZE).foldl (fun g i =>
    let root : List GF := [gone, gpow ggen i]
    (List.range (i + 1)).foldl (fun product j =>
      (List.range root.length).foldl (fun product k =>
        product.set (product.length - 1 - (j + k))
          (gadd (product.getD (product.length - 1 - (j + k)) gzero)
            (gmul (g.getD (g.length - 1 - j) gzero)
              (root.getD (root.length - 1 - k) gzero)))) product)
      (List.replicate (ECC_SIZE + 1) gzero))
    ((List.replicate (ECC_SIZE + 1) gzero).set ECC_SIZE gone)

/-- Horner evaluation of a big-endian coefficient list, from the source. -/
def poly_eval (f : List GF) (x : GF) : GF :=
  f.foldl (fun y c => gadd (gmul y x) c) gzero

/-- In-place scaling of a polynomial, from the source. -/
def poly_scale (f : List GF) (c : GF) : List GF :=
  f.map (fun a => gmul a c)

/-- Pointwise sum aligned at the trailing coefficients; every call site in
the source passes two lists of equal length. -/
def poly_add (f g : List GF) : List GF :=
  List.zipWith gadd f g

/-- One step (outer index i) of the in-place product loop of the source. -/
def poly_mul_inner (g : List GF) (i : Nat) (f : List GF) : List GF :=
  let fi := f.getD (f.length - 1 - i) gzero
  let f1 := f.set (f.length - 1 - i) gzero
  (List.range g.length).foldl (fun acc j =>
    acc.set (acc.length - 1 - (i + j))
      (gadd (acc.getD (acc.length - 1 - (i + j)) gzero)
        (gmul fi (g.getD (g.length - 1 - j) gzero)))) f1

/-- In-place polynomial product of the source: the outer loop runs over
`(0..f.len()-g.len()+1).rev()`. -/
def poly_mul (f g : List GF) : List GF :=
  ((List.range (f.length - g.length + 1)).reverse).foldl
    (fun acc i => poly_mul_inner g i acc) f

/-- One step (index i) of the in-place long-division loop of the source. -/
def poly_divrem_step (g : List GF) (f : List GF) (i : Nat) : List GF :=
  if f.getD i gzero ≠ gzero then
    let f1 := f.set i (gdivOp (f.getD i gzero) (g.getD 0 gzero))
    (List.range' 1 (g.length - 1)).foldl (fun acc j =>
      acc.set (i + j) (gsub (acc.getD (i + j) gzero)
        (gmul (acc.getD i gzero) (g.getD j gzero)))) f1
  else f

/-- In-place polynomial long division of the source; afterwards the last
`g.length - 1` entries hold the remainder. -/
def poly_divrem (f g : List GF) : List GF :=
  (List.range (f.length - g.length + 1)).foldl (poly_divrem_step g) f

/-- Reed-Solomon encoding from the source: zero the parity area of a copy,
divide by the generator polynomial, and append the remainder. -/
def encode (message : List GF) : List GF :=
  let data_len := message.length - ECC_SIZE
  let divrem := message.take data_len ++
    List.replicate (message.length - data_len) gzero
  let divrem2 := poly_divrem divrem GENERATOR_POLY
  message.take data_len ++ divrem2.drop data_len

/-- Syndromes from the source: evaluate at generator^0 .. generator^31. -/
def find_syndromes (f : List GF) : List GF :=
  (List.range ECC_SIZE).map (fun i => poly_eval f (gpow ggen i))

/-- One erasure's pass of the Forney syndrome transform from the source. -/
def forney_step (n : Nat) (S : List GF) (j : Nat) : List GF :=
  let Xj := gpow ggen (n - 1 - j)
  (List.range (S.length - 1)).foldl (fun acc i =>
    acc.set i (gsub (acc.getD (i + 1) gzero) (gmul (acc.getD i gzero) Xj))) S

/-- Forney syndromes from the source: apply one pass per erasure, then drop
as many trailing syndromes as there are erasures. -/
def find_forney_syndromes (codeword S : List GF) (erasures : List Nat) : List GF :=
  let S2 := erasures.foldl (forney_step codeword.length) S
  S2.take (S2.length - erasures.length)

/-- Erasure locator from the source: the product of (1 - x·Xj). -/
def find_erasure_locator (codeword : List GF) (erasures : List Nat) : List GF :=
  erasures.foldl (fun L j =>
    poly_mul L [gneg (gpow ggen (codeword.length - 1 - j)), gone])
    ((List.replicate (erasures.length + 1) gzero).set erasures.length gone)

/-- State of the iterative locator synthesis: current estimate, previous
estimate and current error-count estimate. -/
structure BMState where
  lam : List GF
  prev : List GF
  v : Nat

/-- The discrepancy of iteration i, from the source. -/
def bm_delta (S lam : List GF) (v i : Nat) : GF :=
  (List.range' 1 v).foldl (fun d j =>
    gadd d (gmul (lam.getD (lam.length - 1 - j) gzero) (S.getD (i - j) gzero)))
    (S.getD i gzero)

/-- One iteration of the Berlekamp-Massey loop from the source. -/
def bm_step (S : List GF) (st : BMState) (i : Nat) : BMState :=
  let delta := bm_delta S st.lam st.v i
  let prevR := st.prev.drop 1 ++ st.prev.take 1
  if delta ≠ gzero then
    let s2 :=
      if 2 * st.v ≤ i then
        (poly_scale prevR delta, poly_scale st.lam (grecip delta), i + 1 - st.v)
      else (st.lam, prevR, st.v)
    let dlam := poly_scale s2.2.1 delta
    ⟨poly_add s2.1 dlam, s2.2.1, s2.2.2⟩
  else ⟨st.lam, prevR, st.v⟩

/-- Error locator synthesis from the source, including the final trim of
leading zeros. -/
def find_error_locator (S : List GF) : List GF :=
  let init : List GF := (List.replicate (S.length + 1) gzero).set S.length gone
  let st := (List.range S.length).foldl (bm_step S) ⟨init, init, 0⟩
  st.lam.dropWhile (fun x => decide (x = gzero))

/-- Root search from the source: collect the positions j whose locator
value X_j has Λ(X_j⁻¹) = 0. -/
def find_error_locations (codeword L : List GF) : List Nat :=
  (List.range codeword.length).filter (fun j =>
    decide (poly_eval L (grecip (gpow ggen (codeword.length - 1 - j))) = gzero))

/-- The error evaluator Ω(x) = S(x)·Λ(x) mod x^(2v) of the magnitude
solver, from the source. -/
def mag_Om (S L : List GF) : List GF :=
  let olen := S.length + L.length - 1
  let k := olen - S.length
  let O1 := (List.replicate olen gzero).take k ++ S
  let O2 := O1.take k ++ (O1.drop k).reverse
  let O3 := poly_mul O2 L
  O3.drop (O3.length - S.length)

/-- The formal derivative Λ'(x) of the magnitude solver, from the source. -/
def mag_Lp (L : List GF) : List GF :=
  (List.range' 1 (L.length - 1)).foldl (fun acc i =>
    let sum := (List.range i).foldl
      (fun s _ => gadd s (L.getD (L.length - 1 - i) gzero)) gzero
    acc.set (acc.length - 1 - (i - 1)) sum) (List.replicate (L.length - 1) gzero)

/-- The magnitude assigned to one position j by the solver, from the source:
`-(Xj·Ω(Xj⁻¹))` checked-divided by `Λ'(Xj⁻¹)`, zero fallback. -/
def mag_Yj (codeword S L : List GF) (j : Nat) : GF :=
  let Xj := gpow ggen (codeword.length - 1 - j)
  match gcheckedDiv (gmul (gneg Xj) (poly_eval (mag_Om S L) (grecip Xj)))
      (poly_eval (mag_Lp L) (grecip Xj)) with
  | some Yj => Yj
  | none => gzero

/-- Forney error magnitudes from the source: error evaluator Ω, formal
derivative Λ', and the checked division falling back to zero. -/
def find_error_magnitudes (codeword S L : List GF)
    (error_locations : List Nat) : List GF :=
  error_locations.map (mag_Yj codeword S L)

/-- Single error kind of the codec, from the source. -/
inductive RsError where
  | tooManyErrors
deriving DecidableEq

/-- Result type mirroring the source's `Result<usize, Error>`. -/
inductive RsResult where
  | ok : Nat → RsResult
  | err : RsError → RsResult
deriving DecidableEq

/-- The all-zero test applied to a syndrome vector, from the source. -/
def synd_all_zero (S : List GF) : Bool :=
  S.all (fun s => decide (s = gzero))

/-- Application of the computed magnitudes at the found positions:
`codeword[Xj] += Yj` over the zipped lists, from the source. -/
def apply_corrections (codeword : List GF) (locs : List Nat)
    (mags : List GF) : List GF :=
  (locs.zip mags).foldl
    (fun cw p => cw.set p.1 (gadd (cw.getD p.1 gzero) p.2)) codeword

/-- Syndrome check from the source. -/
def is_correct (codeword : List GF) : Bool :=
  synd_all_zero (find_syndromes codeword)

/-- Pure erasure correction from the source; the returned list is the final
state of the mutable buffer. -/
def correct_erasures (codeword : List GF) (erasures : List Nat) :
    RsResult × List GF :=
  if erasures.length > ECC_SIZE then (RsResult.err RsError.tooManyErrors, codeword)
  else
    let S := find_syndromes codeword
    if synd_all_zero S then (RsResult.ok 0, codeword)
    else
      let L := find_erasure_locator codeword erasures
      let mags := find_error_magnitudes codeword S L erasures
      let cw2 := apply_corrections codeword erasures mags
      let S2 := find_syndromes cw2
      if ¬ synd_all_zero S2 then (RsResult.err RsError.tooManyErrors, cw2)
      else (RsResult.ok erasures.length, cw2)

/-- Pure error correction from the source; the returned list is the final
state of the mutable buffer. -/
def correct_errors (codeword : List GF) : RsResult × List GF :=
  let S := find_syndromes codeword
  if synd_all_zero S then (RsResult.ok 0, codeword)
  else
    let L := find_error_locator S
    let error_count := L.length - 1
    if error_count * 2 > ECC_SIZE then (RsResult.err RsError.tooManyErrors, codeword)
    else
      let locs := find_error_locations codeword L
      let mags := find_error_magnitudes codeword S L locs
      let cw2 := apply_corrections codeword locs mags
      let S2 := find_syndromes cw2
      if ¬ synd_all_zero S2 then (RsResult.err RsError.tooManyErrors, cw2)
      else (RsResult.ok locs.length, cw2)

/-- Combined error/erasure correction from the source; the returned list is
the final state of the mutable buffer. -/
def correct (codeword : List GF) (erasures : List Nat) : RsResult × List GF :=
  if erasures.length > ECC_SIZE then (RsResult.err RsError.tooManyErrors, codeword)
  else
    let S := find_syndromes codeword
    if synd_all_zero S then (RsResult.ok 0, codeword)
    else
      let forney_S := find_forney_syndromes codeword S erasures
      let L := find_error_locator forney_S
      let error_count := L.length - 1
      let erasure_count := erasures.length
      if error_count * 2 + erasure_count > ECC_SIZE then
        (RsResult.err RsError.tooManyErrors, codeword)
      else
        let locs := find_error_locations codeword L ++ erasures
        let L2 := find_erasure_locator codeword locs
        let mags := find_error_magnitudes codeword S L2 locs
        let cw2 := apply_corrections codeword locs mags
        let S2 := find_syndromes cw2
        if ¬ synd_all_zero S2 then (RsResult.err RsError.tooManyErrors, cw2)
        else (RsResult.ok locs.length, cw2)

/-- Byte-to-field-element conversion for concrete inputs. -/
def gf (n : Nat) : GF := ⟨n % 256, Nat.mod_lt _ (by omega)⟩

/-- A concrete word from a byte list. -/
def mkWord (l : List Nat) : List GF := l.map gf

theorem gzero_def : gzero = (0 : GF) := rfl

theorem gone_def : gone = (1 : GF) := rfl

theorem gpow_succ (x : GF) (n : Nat) : gpow x (n + 1) = x * gpow x n := rfl

theorem gpow_add (x : GF) (a b : Nat) : gpow x (a + b) = gpow x a * gpow x b := by
  rw [gpow_eq_pow, gpow_eq_pow, gpow_eq_pow, pow_add]

theorem gf_mul_ne_zero {a b : GF} (ha : a ≠ 0) (hb : b ≠ 0) : a * b ≠ 0 := by
  intro h
  have hv : mulNat a.val b.val = 0 := congrArg GF.val h
  rw [mulNat_eq_tab _ _ a.isLt b.isLt, tabMul,
    if_neg (by simp [gf_val_ne_zero ha, gf_val_ne_zero hb])] at hv
  exact expT_ne _ (Nat.mod_lt _ (by omega)) hv

instance : Nontrivial GF :=
  ⟨0, 1, fun h => by exact absurd (congrArg GF.val h) (by decide)⟩

instance : NoZeroDivisors GF where
  eq_zero_or_eq_zero_of_mul_eq_zero := by
    intro a b h
    by_contra hc
    push_neg at hc
    exact gf_mul_ne_zero hc.1 hc.2 h

instance : IsDomain GF := NoZeroDivisors.to_isDomain GF

theorem poly_eval_go (l : List GF) (x : GF) :
    ∀ y, l.foldl (fun y c => gadd (gmul y x) c) y
      = y * gpow x l.length + poly_eval l x := by
  induction l with
  | nil =>
    intro y
    show y = y * gpow x 0 + poly_eval [] x
    show y = y * gone + poly_eval [] x
    rw [gone_def]
    show y = y * 1 + 0
    ring
  | cons c t ih =>
    intro y
    show List.foldl _ (gadd (gmul y x) c) t = _
    rw [ih]
    have h2 : poly_eval (c :: t) x
        = gadd (gmul gzero x) c * gpow x t.length + poly_eval t x := by
      show List.foldl _ (gadd (gmul gzero x) c) t = _
      rw [ih]
    rw [h2]
    show (y * x + c) * gpow x t.length + poly_eval t x
      = y * gpow x (t.length + 1) + ((gzero * x + c) * gpow x t.length + poly_eval t x)
    rw [gzero_def, gpow_succ]
    ring

theorem poly_eval_nil (x : GF) : poly_eval [] x = 0 := rfl

theorem poly_eval_cons (c : GF) (l : List GF) (x : GF) :
    poly_eval (c :: l) x = c * gpow x l.length + poly_eval l x := by
  show List.foldl _ (gadd (gmul gzero x) c) l = _
  rw [poly_eval_go]
  show (gzero * x + c) * gpow x l.length + poly_eval l x = _
  rw [gzero_def]
  ring

theorem poly_eval_append (l₁ l₂ : List GF) (x : GF) :
    poly_eval (l₁ ++ l₂) x = poly_eval l₁ x * gpow x l₂.length + poly_eval l₂ x := by
  show List.foldl _ gzero (l₁ ++ l₂) = _
  rw [List.foldl_append]
  exact poly_eval_go l₂ x _

theorem poly_eval_replicate_zero (n : Nat) (x : GF) :
    poly_eval (List.replicate n gzero) x = 0 := by
  induction n with
  | zero => rfl
  | succ n ih =>
    rw [List.replicate_succ, poly_eval_cons, ih, gzero_def]
    ring

theorem set_eq_take_cons_drop : ∀ (l : List GF) (k : Nat), k < l.length →
    ∀ a, l.set k a = l.take k ++ a :: l.drop (k + 1)
  | [], k, hk, _ => by simp at hk
  | c :: t, 0, _, a => by simp
  | c :: t, k+1, hk, a => by
    simp only [List.set, List.take, List.drop, List.cons_append, List.cons.injEq, true_and]
    exact set_eq_take_cons_drop t k (by simpa using hk) a

theorem take_cons_drop_self : ∀ (l : List GF) (k : Nat), k < l.length →
    l = l.take k ++ l.getD k gzero :: l.drop (k + 1)
  | [], k, hk => by simp at hk
  | c :: t, 0, _ => by simp
  | c :: t, k+1, hk => by
    have := take_cons_drop_self t k (by simpa using hk)
    simp only [List.take, List.drop, List.cons_append, List.getD_cons_succ]
    exact congrArg (c :: ·) this

theorem poly_eval_set_add : ∀ (l : List GF) (k : Nat) (v x : GF), k < l.length →
    poly_eval (l.set k (gadd (l.getD k gzero) v)) x
      = poly_eval l x + v * gpow x (l.length - 1 - k)
  | [], k, v, x, hk => by simp at hk
  | c :: t, 0, v, x, _ => by
    have he : (c :: t).length - 1 - 0 = t.length := by simp
    rw [he]
    show poly_eval (gadd c v :: t) x = _
    rw [poly_eval_cons, poly_eval_cons, gadd_def]
    ring
  | c :: t, k+1, v, x, hk => by
    have hk' : k < t.length := by simpa using hk
    have he : (c :: t).length - 1 - (k + 1) = t.length - 1 - k := by
      simp only [List.length_cons]
      omega
    rw [he]
    show poly_eval (c :: t.set k (gadd (t.getD k gzero) v)) x = _
    rw [poly_eval_cons, poly_eval_cons, List.length_set,
      poly_eval_set_add t k v x hk']
    ring

theorem poly_eval_zipWith_add : ∀ (a b : List GF), a.length = b.length → ∀ x,
    poly_eval (List.zipWith gadd a b) x = poly_eval a x + poly_eval b x
  | [], [], _, x => by simp [poly_eval_nil]
  | [], _ :: _, h, x => by simp at h
  | _ :: _, [], h, x => by simp at h
  | c :: t, d :: u, h, x => by
    have hlen : t.length = u.length := by simpa using h
    show poly_eval (gadd c d :: List.zipWith gadd t u) x = _
    rw [poly_eval_cons, poly_eval_cons, poly_eval_cons,
      poly_eval_zipWith_add t u hlen x, List.length_zipWith, hlen,
      Nat.min_self, gadd_def]
    ring

theorem poly_eval_map_mul (l : List GF) (c x : GF) :
    poly_eval (l.map (fun a => gmul a c)) x = poly_eval l x * c := by
  induction l with
  | nil =>
    show poly_eval [] x = poly_eval [] x * c
    rw [poly_eval_nil]
    ring
  | cons d t ih =>
    show poly_eval (gmul d c :: t.map _) x = _
    rw [poly_eval_cons, poly_eval_cons, ih, List.length_map, gmul_def]
    ring

theorem synd_all_zero_iff (S : List GF) :
    synd_all_zero S = true ↔ ∀ s ∈ S, s = gzero := by
  simp [synd_all_zero]

theorem getD_all_zero {S : List GF} (hz : ∀ s ∈ S, s = gzero) (k : Nat) :
    S.getD k gzero = gzero := by
  by_cases h : k < S.length
  · rw [List.getD_eq_getElem _ _ h]
    exact hz _ (List.getElem_mem h)
  · exact List.getD_eq_default _ _ (by omega)

theorem gmul_gzero (a : GF) : gmul a gzero = gzero :=
  GF.ext_val (goMul_zero_b 8 _)

theorem gadd_gzero (a : GF) : gadd a gzero = a :=
  GF.ext_val (Nat.xor_zero _)

theorem bm_delta_fold_zero {S : List GF} (hz : ∀ s ∈ S, s = gzero)
    (lam : List GF) (i : Nat) :
    ∀ (js : List Nat) (d : GF), js.foldl (fun d j =>
      gadd d (gmul (lam.getD (lam.length - 1 - j) gzero)
        (S.getD (i - j) gzero))) d = d
  | [], _ => rfl
  | j :: t, d => by
    rw [List.foldl_cons, getD_all_zero hz, gmul_gzero, gadd_gzero]
    exact bm_delta_fold_zero hz lam i t d

theorem bm_delta_zero {S : List GF} (hz : ∀ s ∈ S, s = gzero)
    (lam : List GF) (v i : Nat) : bm_delta S lam v i = gzero := by
  unfold bm_delta
  rw [bm_delta_fold_zero hz lam i (List.range' 1 v), getD_all_zero hz]

theorem bm_fold_zero {S : List GF} (hz : ∀ s ∈ S, s = gzero) :
    ∀ (idxs : List Nat) (st : BMState),
      (idxs.foldl (bm_step S) st).lam = st.lam ∧
      (idxs.foldl (bm_step S) st).v = st.v
  | [], st => ⟨rfl, rfl⟩
  | i :: t, st => by
    have hstep : bm_step S st i =
        ⟨st.lam, st.prev.drop 1 ++ st.prev.take 1, st.v⟩ := by
      unfold bm_step
      rw [bm_delta_zero hz]
      simp
    rw [List.foldl_cons, hstep]
    exact bm_fold_zero hz t _

theorem replicate_set_last (z v : GF) :
    ∀ n, (List.replicate (n + 1) z).set n v = List.replicate n z ++ [v]
  | 0 => rfl
  | n+1 => by
    show z :: (List.replicate (n + 1) z).set n v = _
    rw [replicate_set_last z v n]
    rfl

theorem dropWhile_replicate_zero_append (v : GF) (hv : v ≠ gzero) (rest : List GF) :
    ∀ n, (List.replicate n gzero ++ (v :: rest)).dropWhile
      (fun x => decide (x = gzero)) = v :: rest
  | 0 => by
    show (v :: rest).dropWhile _ = v :: rest
    rw [List.dropWhile_cons_of_neg (by simpa using hv)]
  | n+1 => by
    show (gzero :: (List.replicate n gzero ++ (v :: rest))).dropWhile _ = _
    rw [List.dropWhile_cons_of_pos (by simp)]
    exact dropWhile_replicate_zero_append v hv rest n

theorem find_error_locator_zero {S : List GF} (hz : ∀ s ∈ S, s = gzero) :
    find_error_locator S = [gone] := by
  show List.dropWhile (fun x => decide (x = gzero))
    ((List.range S.length).foldl (bm_step S)
      ⟨(List.replicate (S.length + 1) gzero).set S.length gone,
       (List.replicate (S.length + 1) gzero).set S.length gone, 0⟩).lam = [gone]
  rw [(bm_fold_zero hz (List.range S.length) _).1]
  show ((List.replicate (S.length + 1) gzero).set S.length gone).dropWhile _ = _
  rw [replicate_set_last, dropWhile_replicate_zero_append gone (by decide)]

theorem fold_set_zero (Xj : GF) :
    ∀ (is : List Nat) (acc : List GF), (∀ s ∈ acc, s = gzero) →
      ∀ s ∈ is.foldl (fun acc i =>
        acc.set i (gsub (acc.getD (i + 1) gzero)
          (gmul (acc.getD i gzero) Xj))) acc, s = gzero
  | [], _, hz => hz
  | i :: t, acc, hz => by
    rw [List.foldl_cons]
    refine fold_set_zero Xj t _ (fun u hu => ?_)
    rcases List.mem_or_eq_of_mem_set hu with h | h
    · exact hz u h
    · rw [h, getD_all_zero hz, getD_all_zero hz, gsub_def, gmul_def,
        gzero_def, gf_zero_mul, gf_add_zero]

theorem forney_step_zero {acc : List GF} (hz : ∀ s ∈ acc, s = gzero)
    (n j : Nat) : ∀ s ∈ forney_step n acc j, s = gzero := by
  unfold forney_step
  exact fold_set_zero _ _ acc hz

theorem forney_syndromes_zero {S : List GF} (hz : ∀ s ∈ S, s = gzero)
    (cw : List GF) (e : List Nat) :
    ∀ s ∈ find_forney_syndromes cw S e, s = gzero := by
  unfold find_forney_syndromes
  intro s hs
  have hs2 := List.mem_of_mem_take hs
  revert hs2
  show s ∈ e.foldl (forney_step cw.length) S → s = gzero
  clear hs
  induction e generalizing S with
  | nil => exact fun h => hz s h
  | cons j t ih =>
    rw [List.foldl_cons]
    exact ih (forney_step_zero hz cw.length j)

/-- C6: declaring more than ECC_SIZE erasure positions makes both
`correct_erasures` and `correct` return `TooManyErrors` with the buffer
completely untouched. -/
theorem c6_too_many_erasures (cw : List GF) (e : List Nat)
    (h : e.length > ECC_SIZE) :
    correct_erasures cw e = (RsResult.err RsError.tooManyErrors, cw) ∧
    correct cw e = (RsResult.err RsError.tooManyErrors, cw) := by
  constructor
  · unfold correct_erasures
    rw [if_pos h]
  · unfold correct
    rw [if_pos h]

theorem c6_witness :
    correct_erasures [] (List.replicate 33 0) =
      (RsResult.err RsError.tooManyErrors, []) ∧
    correct [] (List.replicate 33 0) =
      (RsResult.err RsError.tooManyErrors, []) :=
  c6_too_many_erasures [] (List.replicate 33 0) (by decide)

/-- C10: when the syndromes are already all zero, each of the three entry
points returns Ok(0) and leaves the buffer unchanged, even with a nonempty
erasure list of size at most ECC_SIZE (the count is 0, not the number of
erasures). -/
theorem c10_zero_syndromes (cw : List GF) (e : List Nat)
    (hz : synd_all_zero (find_syndromes cw) = true) (he : e.length ≤ ECC_SIZE) :
    correct_erasures cw e = (RsResult.ok 0, cw) ∧
    correct_errors cw = (RsResult.ok 0, cw) ∧
    correct cw e = (RsResult.ok 0, cw) := by
  have hng : ¬ e.length > ECC_SIZE := by omega
  refine ⟨?_, ?_, ?_⟩
  · unfold correct_erasures
    rw [if_neg hng, if_pos hz]
  · unfold correct_errors
    rw [if_pos hz]
  · unfold correct
    rw [if_neg hng, if_pos hz]

theorem c10_witness :
    correct_erasures [] [0] = (RsResult.ok 0, []) ∧
    correct_errors [] = (RsResult.ok 0, []) ∧
    correct [] [0] = (RsResult.ok 0, []) :=
  c10_zero_syndromes [] [0] (by decide) (by decide)

/-- C8: whenever the denominator Λ'(Xj⁻¹) of the magnitude solver is the
zero field element, the solver does not fail: the magnitude for that
position is the additive identity, and one magnitude is still produced per
requested position so the caller proceeds to the final verification. -/
theorem c8_zero_denominator (cw S L : List GF) (locs : List Nat) (j : Nat)
    (hj : j ∈ locs)
    (hden : poly_eval (mag_Lp L) (grecip (gpow ggen (cw.length - 1 - j))) = gzero) :
    mag_Yj cw S L j = gzero ∧
    (find_error_magnitudes cw S L locs).length = locs.length := by
  constructor
  · have hv : (poly_eval (mag_Lp L)
        (grecip (gpow ggen (cw.length - 1 - j)))).val = 0 := by
      rw [hden]
      rfl
    simp only [mag_Yj, gcheckedDiv]
    rw [if_pos hv]
  · simp [find_error_magnitudes]

theorem c8_witness :
    (0 : Nat) ∈ [0] ∧
    poly_eval (mag_Lp [gone]) (grecip (gpow ggen 0)) = gzero ∧
    mag_Yj [gzero] [gone] [gone] 0 = gzero ∧
    (find_error_magnitudes [gzero] [gone] [gone] [0]).length = [0].length :=
  ⟨by decide, by decide,
    (c8_zero_denominator [gzero] [gone] [gone] [0] 0 (by decide) (by decide)).1,
    (c8_zero_denominator [gzero] [gone] [gone] [0] 0 (by decide) (by decide)).2⟩

/-- C5: `correct_errors` rejects with TooManyErrors, before touching the
buffer, whenever the locator synthesised from the raw syndromes has
2·(error count) > ECC_SIZE; and `correct` rejects likewise whenever
2·(unknown error count) + (number of erasures) > ECC_SIZE. -/
theorem c5_capacity_reject (cw : List GF) (e : List Nat) :
    (2 * ((find_error_locator (find_syndromes cw)).length - 1) > ECC_SIZE →
      correct_errors cw = (RsResult.err RsError.tooManyErrors, cw)) ∧
    (2 * ((find_error_locator
        (find_forney_syndromes cw (find_syndromes cw) e)).length - 1)
        + e.length > ECC_SIZE →
      correct cw e = (RsResult.err RsError.tooManyErrors, cw)) := by
  constructor
  · intro hcap
    by_cases hz : synd_all_zero (find_syndromes cw) = true
    · rw [find_error_locator_zero ((synd_all_zero_iff _).1 hz)] at hcap
      simp [ECC_SIZE] at hcap
    · have hcap' : ((find_error_locator (find_syndromes cw)).length - 1) * 2
          > ECC_SIZE := by omega
      simp only [correct_errors]
      rw [if_neg hz, if_pos hcap']
  · intro hcap
    by_cases hge : e.length > ECC_SIZE
    · unfold correct
      rw [if_pos hge]
    by_cases hz : synd_all_zero (find_syndromes cw) = true
    · rw [find_error_locator_zero
        (forney_syndromes_zero ((synd_all_zero_iff _).1 hz) cw e)] at hcap
      have hge' : ¬ e.length > 32 := hge
      simp [ECC_SIZE] at hcap
      omega
    · have hcap' : ((find_error_locator
          (find_forney_syndromes cw (find_syndromes cw) e)).length - 1) * 2
          + e.length > ECC_SIZE := by omega
      simp only [correct]
      rw [if_neg hge, if_neg hz, if_pos hcap']

/-- Concrete 33-byte buffer whose raw-syndrome locator has degree 17. -/
def c5w : List GF := mkWord [21, 31, 234, 19, 161, 159, 153, 199, 157, 197,
  247, 150, 61, 5, 54, 217, 37, 106, 63, 4, 125, 240, 36, 108, 174, 109, 151,
  146, 238, 238, 107, 236, 192]

theorem c5_witness :
    correct_errors c5w = (RsResult.err RsError.tooManyErrors, c5w) ∧
    correct c5w (List.replicate 33 0) =
      (RsResult.err RsError.tooManyErrors, c5w) :=
  ⟨(c5_capacity_reject c5w (List.replicate 33 0)).1 (by decide),
   (c5_capacity_reject c5w (List.replicate 33 0)).2 (by decide)⟩

/-- C9 (amended): with an empty erasure list, `correct` agrees exactly with
`correct_errors` (same result and same final buffer) whenever the syndromes
are all zero, or the capacity check 2·(deg Λ) > ECC_SIZE rejects, or the
locator root search finds no positions.  In the remaining case the two
routines correct at the same positions but compute the magnitudes from
different locator polynomials (the synthesised locator versus a re-derived
erasure locator over the found positions), so after a failed correction the
final buffers can differ. -/
theorem c9_correct_empty_erasures_eq (cw : List GF)
    (h : synd_all_zero (find_syndromes cw) = true ∨
      2 * ((find_error_locator (find_syndromes cw)).length - 1) > ECC_SIZE ∨
      find_error_locations cw (find_error_locator (find_syndromes cw)) = []) :
    correct cw [] = correct_errors cw := by
  have hf : find_forney_syndromes cw (find_syndromes cw) [] = find_syndromes cw := by
    show (find_syndromes cw).take ((find_syndromes cw).length - 0)
      = find_syndromes cw
    rw [Nat.sub_zero, List.take_length]
  have hne : ¬ ([] : List Nat).length > ECC_SIZE := by decide
  by_cases hz : synd_all_zero (find_syndromes cw) = true
  · simp only [correct, correct_errors]
    rw [if_neg hne, if_pos hz, if_pos hz]
  · simp only [correct, correct_errors]
    rw [if_neg hne, if_neg hz, if_neg hz, hf, List.length_nil, Nat.add_zero]
    by_cases hcap : ((find_error_locator (find_syndromes cw)).length - 1) * 2
        > ECC_SIZE
    · rw [if_pos hcap, if_pos hcap]
    · rw [if_neg hcap, if_neg hcap]
      have hloc : find_error_locations cw
          (find_error_locator (find_syndromes cw)) = [] := by
        rcases h with h | h | h
        · exact absurd h hz
        · exfalso
          have hE : (32 : Nat) = ECC_SIZE := rfl
          rw [← hE] at h hcap
          omega
        · exact h
      have happ : ∀ (w : List GF) (m : List GF),
          apply_corrections w [] m = w := fun _ _ => rfl
      rw [hloc, show ([] : List Nat) ++ [] = [] from rfl, happ, happ]

/-- Concrete 32-byte buffer: its syndromes come from one component at the
in-range locator value g^31 and one at the out-of-range value g^100, so the
synthesised locator has degree 2 but the root search finds one position. -/
def c9w : List GF := mkWord [132, 240, 20, 98, 11, 127, 16, 88, 165, 78, 212,
  120, 135, 59, 73, 86, 26, 38, 91, 103, 220, 137, 233, 204, 242, 5, 226, 231,
  60, 14, 107, 13]

theorem c9_counterexample : correct c9w [] ≠ correct_errors c9w := by decide

theorem c9_witness : correct [] [] = correct_errors [] :=
  c9_correct_empty_erasures_eq [] (Or.inl (by decide))

theorem getD_set_ne (l : List GF) (i j : Nat) (v : GF) (h : i ≠ j) :
    (l.set i v).getD j gzero = l.getD j gzero := by
  simp [List.getD, List.getElem?_set_ne h]

theorem getD_set_self (l : List GF) (i : Nat) (v : GF) (h : i < l.length) :
    (l.set i v).getD i gzero = v := by
  simp [List.getD, List.getElem?_set_self, h]

theorem set_getD_self : ∀ (l : List GF) (i : Nat), i < l.length →
    l.set i (l.getD i gzero) = l
  | [], i, h => by simp at h
  | c :: t, 0, _ => by simp
  | c :: t, i+1, h => by
    show c :: t.set i (t.getD i gzero) = c :: t
    rw [set_getD_self t i (by simpa using h)]

theorem getD_drop (l : List GF) (k m : Nat) :
    (l.drop k).getD m gzero = l.getD (k + m) gzero := by
  simp [List.getD, List.getElem?_drop]

theorem drop_cons_getD (l : List GF) (i : Nat) (hi : i < l.length) :
    l.drop i = l.getD i gzero :: l.drop (i + 1) := by
  rw [List.getD_eq_getElem _ _ hi]
  exact List.drop_eq_getElem_cons hi

theorem generator_poly_length : GENERATOR_POLY.length = 33 := by decide

theorem generator_poly_monic : GENERATOR_POLY.getD 0 gzero = gone := by decide

theorem generator_poly_roots :
    ∀ i, i < 32 → poly_eval GENERATOR_POLY (gpow ggen i) = gzero := by decide

theorem divrem_inner_suffix (g : List GF) (i : Nat) (α q : GF) :
    ∀ (m : Nat) (acc : List GF), acc.getD i gzero = q →
      i + m < acc.length → m ≤ g.length - 1 →
      (((List.range' 1 m).foldl (fun acc j =>
          acc.set (i + j) (gsub (acc.getD (i + j) gzero)
            (gmul (acc.getD i gzero) (g.getD j gzero)))) acc).length
        = acc.length) ∧
      (((List.range' 1 m).foldl (fun acc j =>
          acc.set (i + j) (gsub (acc.getD (i + j) gzero)
            (gmul (acc.getD i gzero) (g.getD j gzero)))) acc).getD i gzero
        = q) ∧
      poly_eval (((List.range' 1 m).foldl (fun acc j =>
          acc.set (i + j) (gsub (acc.getD (i + j) gzero)
            (gmul (acc.getD i gzero) (g.getD j gzero)))) acc).drop (i + 1)) α
        = poly_eval (acc.drop (i + 1)) α
          + q * (poly_eval ((g.drop 1).take m) α
              * gpow α (acc.length - 1 - i - m)) := by
  intro m
  induction m with
  | zero =>
    intro acc hq hlt _
    simp only [List.range'_zero, List.foldl_nil, List.take_zero, poly_eval_nil]
    exact ⟨trivial, hq, by ring⟩
  | succ m ih =>
    intro acc hq hlt hm
    have hm' : m ≤ g.length - 1 := by omega
    have hlt' : i + m < acc.length := by omega
    obtain ⟨ihlen, ihq, iheval⟩ := ih acc hq hlt' hm'
    have hconcat : List.range' 1 (m + 1) = List.range' 1 m ++ [1 + m] := by
      rw [List.range'_concat]
      simp
    rw [hconcat, List.foldl_append, List.foldl_cons, List.foldl_nil]
    set F := (List.range' 1 m).foldl (fun acc j =>
      acc.set (i + j) (gsub (acc.getD (i + j) gzero)
        (gmul (acc.getD i gzero) (g.getD j gzero)))) acc with hF
    have hiF : i + (1 + m) < F.length := by omega
    have hstep : F.set (i + (1 + m)) (gsub (F.getD (i + (1 + m)) gzero)
        (gmul (F.getD i gzero) (g.getD (1 + m) gzero)))
        = F.set (i + (1 + m)) (gadd (F.getD (i + (1 + m)) gzero)
          (gmul q (g.getD (1 + m) gzero))) := by
      rw [ihq]
      rfl
    rw [hstep]
    refine ⟨by rw [List.length_set, ihlen], ?_, ?_⟩
    · rw [getD_set_ne _ _ _ _ (by omega), ihq]
    · have hdropset : (F.set (i + (1 + m)) (gadd (F.getD (i + (1 + m)) gzero)
          (gmul q (g.getD (1 + m) gzero)))).drop (i + 1)
          = (F.drop (i + 1)).set (i + (1 + m) - (i + 1))
            (gadd (F.getD (i + (1 + m)) gzero)
              (gmul q (g.getD (1 + m) gzero))) := by
        rw [List.drop_set, if_neg (by omega)]
      rw [hdropset]
      have hidx : i + (1 + m) - (i + 1) = m := by omega
      have hgetF : F.getD (i + (1 + m)) gzero = (F.drop (i + 1)).getD m gzero := by
        rw [getD_drop]
        congr 1
        omega
      rw [hidx, hgetF]
      have hmlen : m < (F.drop (i + 1)).length := by
        rw [List.length_drop, ihlen]
        omega
      rw [poly_eval_set_add _ _ _ _ hmlen, iheval]
      have hglen : m < (g.drop 1).length := by
        rw [List.length_drop]
        omega
      have htake : (g.drop 1).take (m + 1)
          = (g.drop 1).take m ++ [(g.drop 1).getD m gzero] := by
        rw [List.getD_eq_getElem _ _ hglen]
        rw [List.take_concat_get']
      rw [htake, poly_eval_append, poly_eval_cons, poly_eval_nil,
        ← getD_drop g 1 m]
      have hLd : (F.drop (i + 1)).length = acc.length - 1 - i := by
        rw [List.length_drop, ihlen]
        omega
      rw [hLd]
      have he1 : acc.length - 1 - i - m = (acc.length - 1 - i - (m + 1)) + 1 := by
        omega
      have he2 : acc.length - 1 - i - 1 - m = acc.length - 1 - i - (m + 1) := by
        omega
      rw [he1, he2, gpow_add]
      have hp2 : gpow α 1 = α := by
        rw [gpow_succ]
        show α * gone = α
        rw [gone_def]
        ring
      have hp1 : gpow α ([(g.drop 1).getD m gzero].length) = α := hp2
      have hp0 : gpow α (([] : List GF).length) = 1 := rfl
      rw [hp1, hp0, hp2, gmul_def]
      ring

theorem poly_divrem_step_eval (g f : List GF) (i : Nat) (α : GF)
    (hroot : poly_eval g α = gzero) (hmonic : g.getD 0 gzero = gone)
    (hglen : 1 ≤ g.length) (hfit : i + g.length ≤ f.length) :
    (poly_divrem_step g f i).length = f.length ∧
    poly_eval ((poly_divrem_step g f i).drop (i + 1)) α
      = poly_eval (f.drop i) α := by
  have hi : i < f.length := by omega
  have hevali : poly_eval (f.drop i) α
      = f.getD i gzero * gpow α (f.length - 1 - i)
        + poly_eval (f.drop (i + 1)) α := by
    rw [drop_cons_getD f i hi, poly_eval_cons, List.length_drop,
      show f.length - (i + 1) = f.length - 1 - i from by omega]
  simp only [poly_divrem_step]
  by_cases h0 : f.getD i gzero ≠ gzero
  · rw [if_pos h0]
    have hq : gdivOp (f.getD i gzero) (g.getD 0 gzero) = f.getD i gzero := by
      rw [hmonic]
      show gmul (f.getD i gzero) (grecip gone) = f.getD i gzero
      rw [show grecip gone = gone from by decide]
      exact gf_mul_one _
    rw [hq, set_getD_self f i hi]
    obtain ⟨hlen, hgq, heval⟩ := divrem_inner_suffix g i α (f.getD i gzero)
      (g.length - 1) f rfl (by omega) (by omega)
    refine ⟨hlen, ?_⟩
    rw [heval, hevali]
    have htake : (g.drop 1).take (g.length - 1) = g.drop 1 := by
      apply List.take_of_length_le
      rw [List.length_drop]
    rw [htake]
    have hg0 : g.drop 0 = g.getD 0 gzero :: g.drop 1 := drop_cons_getD g 0 (by omega)
    rw [List.drop_zero] at hg0
    have hgroot : g.getD 0 gzero * gpow α ((g.drop 1).length)
        + poly_eval (g.drop 1) α = gzero := by
      rw [← poly_eval_cons, ← hg0]
      exact hroot
    rw [hmonic] at hgroot
    have htail : poly_eval (g.drop 1) α = gpow α (g.length - 1) := by
      calc poly_eval (g.drop 1) α
          = gone * gpow α ((g.drop 1).length)
            + (gone * gpow α ((g.drop 1).length) + poly_eval (g.drop 1) α) := by
            rw [← add_assoc, gone_def, gf_add_self, zero_add]
        _ = gone * gpow α ((g.drop 1).length) + gzero := by rw [hgroot]
        _ = gpow α (g.length - 1) := by
            rw [gzero_def, add_zero, gone_def, one_mul, List.length_drop]
    rw [htail, ← gpow_add,
      show (g.length - 1) + (f.length - 1 - i - (g.length - 1))
        = f.length - 1 - i from by omega]
    ring
  · rw [if_neg h0]
    refine ⟨rfl, ?_⟩
    have h0' : f.getD i gzero = gzero := not_ne_iff.mp h0
    rw [hevali, h0', gzero_def, zero_mul, zero_add]

theorem poly_divrem_fold_eval (g : List GF) (α : GF)
    (hroot : poly_eval g α = gzero) (hmonic : g.getD 0 gzero = gone)
    (hglen : 1 ≤ g.length) :
    ∀ (N : Nat) (f : List GF), N + g.length ≤ f.length + 1 →
      (((List.range N).foldl (poly_divrem_step g) f).length = f.length) ∧
      poly_eval (((List.range N).foldl (poly_divrem_step g) f).drop N) α
        = poly_eval f α
  | 0, f, _ => ⟨rfl, by
      show poly_eval (f.drop 0) α = poly_eval f α
      rw [List.drop_zero]⟩
  | N+1, f, hfit => by
    rw [List.range_succ, List.foldl_append, List.foldl_cons, List.foldl_nil]
    obtain ⟨ihlen, iheval⟩ :=
      poly_divrem_fold_eval g α hroot hmonic hglen N f (by omega)
    obtain ⟨slen, seval⟩ := poly_divrem_step_eval g
      ((List.range N).foldl (poly_divrem_step g) f) N α hroot hmonic hglen
      (by rw [ihlen]; omega)
    exact ⟨by rw [slen, ihlen], by rw [seval, iheval]⟩

theorem encode_syndromes_zero (msg : List GF) (h32 : 32 ≤ msg.length) :
    ∀ i, i < 32 → poly_eval (encode msg) (gpow ggen i) = gzero := by
  intro i hi
  have hroot := generator_poly_roots i hi
  have hmonic := generator_poly_monic
  have hgl := generator_poly_length
  have hE : ECC_SIZE = 32 := rfl
  simp only [encode, hE]
  rw [show msg.length - (msg.length - 32) = 32 from by omega]
  rcases Nat.lt_or_ge msg.length 33 with hn | hn
  · rw [show msg.length - 32 = 0 from by omega]
    simp only [List.take_zero, List.nil_append, List.drop_zero]
    rw [show poly_divrem (List.replicate 32 gzero) GENERATOR_POLY
      = List.replicate 32 gzero from by decide]
    rw [poly_eval_replicate_zero]
    rfl
  · have hf0len : (msg.take (msg.length - 32)
        ++ List.replicate 32 gzero).length = msg.length := by
      rw [List.length_append, List.length_take, List.length_replicate]
      omega
    simp only [poly_divrem]
    rw [hgl, hf0len, show msg.length - 33 + 1 = msg.length - 32 from by omega]
    obtain ⟨flen, feval⟩ := poly_divrem_fold_eval GENERATOR_POLY (gpow ggen i)
      hroot hmonic (by rw [hgl]; omega) (msg.length - 32)
      (msg.take (msg.length - 32) ++ List.replicate 32 gzero)
      (by rw [hgl, hf0len]; omega)
    rw [poly_eval_append]
    have hdroplen : (((List.range (msg.length - 32)).foldl
        (poly_divrem_step GENERATOR_POLY)
        (msg.take (msg.length - 32) ++ List.replicate 32 gzero)).drop
          (msg.length - 32)).length = 32 := by
      rw [List.length_drop, flen, hf0len]
      omega
    rw [hdroplen, feval, poly_eval_append, List.length_replicate,
      poly_eval_replicate_zero, gzero_def, add_zero]
    exact gf_add_self _

/-- C1: encoding any buffer whose length is between ECC_SIZE and BLOCK_SIZE
and then checking it with `is_correct` returns true: all ECC_SIZE syndromes
of the encoded buffer are zero. -/
theorem c1_encode_round_trip (msg : List GF) (h1 : ECC_SIZE ≤ msg.length)
    (h2 : msg.length ≤ BLOCK_SIZE) : is_correct (encode msg) = true := by
  have hz := encode_syndromes_zero msg h1
  unfold is_correct synd_all_zero find_syndromes
  rw [List.all_eq_true]
  intro x hx
  rw [List.mem_map] at hx
  obtain ⟨j, hj, rfl⟩ := hx
  rw [List.mem_range] at hj
  exact decide_eq_true (hz j hj)

theorem c1_witness :
    ECC_SIZE ≤ (mkWord (List.range 40)).length ∧
    (mkWord (List.range 40)).length ≤ BLOCK_SIZE ∧
    is_correct (encode (mkWord (List.range 40))) = true :=
  ⟨by decide, by decide, c1_encode_round_trip _ (by decide) (by decide)⟩

theorem gadd_eq_zero {x y : GF} (h : gadd x y = gzero) : x = y := by
  have hv : x.val ^^^ y.val = 0 := congrArg GF.val h
  exact GF.ext_val (Nat.xor_eq_zero.mp hv)

theorem zip_gadd_zero_eq : ∀ (a b : List GF), a.length = b.length →
    (∀ c ∈ List.zipWith gadd a b, c = gzero) → a = b
  | [], [], _, _ => rfl
  | [], _ :: _, h, _ => by simp at h
  | _ :: _, [], h, _ => by simp at h
  | x :: xs, y :: ys, h, hz => by
    have h1 : x = y := gadd_eq_zero (hz _ (by simp [List.zipWith_cons_cons]))
    have h2 : xs = ys := zip_gadd_zero_eq xs ys (by simpa using h)
      (fun c hc => hz c (by simp [List.zipWith_cons_cons, hc]))
    rw [h1, h2]

/-- Big-endian coefficient list seen as a `Polynomial GF`; this is part of
the proof apparatus (used only to borrow root-counting facts), not a
translation of program code, so it may be noncomputable. -/
noncomputable def toPoly (l : List GF) : Polynomial GF :=
  l.foldl (fun p c => p * Polynomial.X + Polynomial.C c) 0

theorem toPoly_go (l : List GF) :
    ∀ p : Polynomial GF, l.foldl (fun p c => p * Polynomial.X + Polynomial.C c) p
      = p * Polynomial.X ^ l.length + toPoly l := by
  induction l with
  | nil =>
    intro p
    show p = p * Polynomial.X ^ 0 + 0
    ring
  | cons c t ih =>
    intro p
    show t.foldl _ (p * Polynomial.X + Polynomial.C c) = _
    rw [ih]
    have h2 : toPoly (c :: t)
        = (0 * Polynomial.X + Polynomial.C c) * Polynomial.X ^ t.length
          + toPoly t := by
      show t.foldl _ (0 * Polynomial.X + Polynomial.C c) = _
      rw [ih]
    rw [h2]
    show (p * Polynomial.X + Polynomial.C c) * Polynomial.X ^ t.length + toPoly t
      = p * Polynomial.X ^ (t.length + 1)
        + ((0 * Polynomial.X + Polynomial.C c) * Polynomial.X ^ t.length + toPoly t)
    ring

theorem toPoly_cons (c : GF) (t : List GF) :
    toPoly (c :: t) = Polynomial.C c * Polynomial.X ^ t.length + toPoly t := by
  show t.foldl _ (0 * Polynomial.X + Polynomial.C c) = _
  rw [toPoly_go]
  ring

theorem toPoly_eval (l : List GF) (x : GF) :
    (toPoly l).eval x = poly_eval l x := by
  induction l with
  | nil =>
    show (0 : Polynomial GF).eval x = poly_eval [] x
    rw [Polynomial.eval_zero, poly_eval_nil]
  | cons c t ih =>
    rw [toPoly_cons, poly_eval_cons, Polynomial.eval_add, Polynomial.eval_mul,
      Polynomial.eval_C, Polynomial.eval_pow, Polynomial.eval_X, ih,
      gpow_eq_pow]

theorem toPoly_natDegree_lt : ∀ (l : List GF) (n : Nat), l.length ≤ n → 0 < n →
    (toPoly l).natDegree < n
  | [], n, _, hn => by
    show (0 : Polynomial GF).natDegree < n
    rw [Polynomial.natDegree_zero]
    exact hn
  | c :: t, n, hlen, hn => by
    rw [toPoly_cons]
    apply Nat.lt_of_le_of_lt (Polynomial.natDegree_add_le _ _)
    apply max_lt
    · exact Nat.lt_of_le_of_lt (Polynomial.natDegree_C_mul_X_pow_le c t.length)
        (by simp at hlen; omega)
    · exact toPoly_natDegree_lt t n (by simp at hlen; omega) hn

theorem toPoly_zero_all : ∀ (l : List GF), toPoly l = 0 → ∀ c ∈ l, c = gzero
  | [], _, c, hc => by simp at hc
  | d :: t, h, c, hc => by
    rw [toPoly_cons] at h
    have hct : (toPoly t).coeff t.length = 0 := by
      cases t with
      | nil =>
        show (0 : Polynomial GF).coeff ([] : List GF).length = 0
        simp
      | cons e u =>
        exact Polynomial.coeff_eq_zero_of_natDegree_lt
          (toPoly_natDegree_lt (e :: u) (e :: u).length (le_refl _) (by simp))
    have hcoef := congrArg (fun p => Polynomial.coeff p t.length) h
    simp only [Polynomial.coeff_add, Polynomial.coeff_zero] at hcoef
    rw [Polynomial.coeff_C_mul, Polynomial.coeff_X_pow, if_pos rfl, mul_one,
      hct, add_zero] at hcoef
    rw [List.mem_cons] at hc
    rcases hc with rfl | hc
    · rw [gzero_def]
      exact hcoef
    · have ht : toPoly t = 0 := by
        rw [hcoef] at h
        simpa using h
      exact toPoly_zero_all t ht c hc

theorem tail_syndromes_zero (t : List GF) (hlen : t.length ≤ 32)
    (hev : ∀ i, i < 32 → poly_eval t (gpow ggen i) = gzero) :
    ∀ c ∈ t, c = gzero := by
  apply toPoly_zero_all
  apply Polynomial.eq_zero_of_natDegree_lt_card_of_eval_eq_zero' (toPoly t)
    ((Finset.range 32).image (fun k => gfexp k))
  · intro x hx
    rw [Finset.mem_image] at hx
    obtain ⟨k, hk, rfl⟩ := hx
    rw [Finset.mem_range] at hk
    rw [toPoly_eval, ← gpow_ggen]
    rw [gzero_def] at hev
    exact hev k hk
  · have hcard : ((Finset.range 32).image (fun k => gfexp k)).card = 32 := by
      rw [Finset.card_image_of_injOn, Finset.card_range]
      intro i hi j hj hij
      rw [Finset.coe_range, Set.mem_Iio] at hi hj
      exact gfexp_inj (by omega) (by omega) hij
    rw [hcard]
    exact toPoly_natDegree_lt t 32 hlen (by omega)

theorem codeword_unique (a b : List GF) (n : Nat) (hn1 : 32 ≤ n) (hn2 : n ≤ 255)
    (hla : a.length = n) (hlb : b.length = n)
    (hpre : a.take (n - 32) = b.take (n - 32))
    (hsa : ∀ i, i < 32 → poly_eval a (gpow ggen i) = gzero)
    (hsb : ∀ i, i < 32 → poly_eval b (gpow ggen i) = gzero) : a = b := by
  have hta : (a.drop (n - 32)).length = 32 := by
    rw [List.length_drop, hla]
    omega
  have htb : (b.drop (n - 32)).length = 32 := by
    rw [List.length_drop, hlb]
    omega
  have hzip : ∀ c ∈ List.zipWith gadd (a.drop (n - 32)) (b.drop (n - 32)),
      c = gzero := by
    apply tail_syndromes_zero
    · rw [List.length_zipWith, hta, htb]
      omega
    · intro i hi
      have heq : ∀ (l : List GF), l.length = n →
          (∀ k, k < 32 → poly_eval l (gpow ggen k) = gzero) →
          poly_eval (l.drop (n - 32)) (gpow ggen i)
            = poly_eval (l.take (n - 32)) (gpow ggen i)
              * gpow (gpow ggen i) 32 := by
        intro l hl hs
        have hsplit : l.take (n - 32) ++ l.drop (n - 32) = l :=
          List.take_append_drop _ _
        have hdl : (l.drop (n - 32)).length = 32 := by
          rw [List.length_drop, hl]
          omega
        have h0 : poly_eval (l.take (n - 32)) (gpow ggen i)
            * gpow (gpow ggen i) 32
            + poly_eval (l.drop (n - 32)) (gpow ggen i) = gzero := by
          have h1 := hs i hi
          rw [← hsplit, poly_eval_append, hdl] at h1
          exact h1
        calc poly_eval (l.drop (n - 32)) (gpow ggen i)
            = poly_eval (l.take (n - 32)) (gpow ggen i) * gpow (gpow ggen i) 32
              + (poly_eval (l.take (n - 32)) (gpow ggen i)
                * gpow (gpow ggen i) 32
                + poly_eval (l.drop (n - 32)) (gpow ggen i)) := by
              rw [← add_assoc, gf_add_self, zero_add]
          _ = poly_eval (l.take (n - 32)) (gpow ggen i) * gpow (gpow ggen i) 32
              + gzero := by rw [h0]
          _ = poly_eval (l.take (n - 32)) (gpow ggen i)
              * gpow (gpow ggen i) 32 := by rw [gzero_def, add_zero]
      rw [poly_eval_zipWith_add _ _ (by rw [hta, htb]) _]
      rw [heq a hla hsa, heq b hlb hsb, hpre, gzero_def]
      exact gf_add_self _
  have htails : a.drop (n - 32) = b.drop (n - 32) :=
    zip_gadd_zero_eq _ _ (by rw [hta, htb]) hzip
  calc a = a.take (n - 32) ++ a.drop (n - 32) := (List.take_append_drop _ _).symm
    _ = b.take (n - 32) ++ b.drop (n - 32) := by rw [hpre, htails]
    _ = b := List.take_append_drop _ _

theorem foldl_length_invariant {α : Type} (F : List GF → α → List GF)
    (h : ∀ acc x, (F acc x).length = acc.length) :
    ∀ (l : List α) (acc : List GF), (l.foldl F acc).length = acc.length
  | [], _ => rfl
  | x :: t, acc => by
    rw [List.foldl_cons, foldl_length_invariant F h t (F acc x), h]

theorem poly_divrem_step_length (g f : List GF) (i : Nat) :
    (poly_divrem_step g f i).length = f.length := by
  simp only [poly_divrem_step]
  by_cases h0 : f.getD i gzero ≠ gzero
  · rw [if_pos h0]
    rw [foldl_length_invariant _ (fun acc x => List.length_set _ _ _) _ _]
    exact List.length_set _ _ _
  · rw [if_neg h0]

theorem poly_divrem_length (f g : List GF) : (poly_divrem f g).length = f.length := by
  simp only [poly_divrem]
  exact foldl_length_invariant _ (fun acc x => poly_divrem_step_length g acc x) _ f

theorem encode_length (msg : List GF) (h32 : 32 ≤ msg.length) :
    (encode msg).length = msg.length := by
  have hE : ECC_SIZE = 32 := rfl
  simp only [encode, hE]
  rw [List.length_append, List.length_take, List.length_drop, poly_divrem_length,
    List.length_append, List.length_take, List.length_replicate]
  omega

theorem encode_take (msg : List GF) (h32 : 32 ≤ msg.length) :
    (encode msg).take (msg.length - 32) = msg.take (msg.length - 32) := by
  have hE : ECC_SIZE = 32 := rfl
  simp only [encode, hE]
  have hl : (msg.take (msg.length - 32)).length = msg.length - 32 := by
    rw [List.length_take]
    omega
  rw [List.take_left' hl]

/-- The encoded form of the bytes `0, 1, ..., 254` (first 223 bytes data,
last 32 parity), stored in 32-byte chunks so that every kernel evaluation
of a fold over it stays shallow. -/
def bgc0 : List GF := mkWord [0, 1, 2, 3, 4, 5, 6, 7, 8, 9, 10, 11, 12, 13, 14, 15, 16, 17, 18, 19, 20, 21, 22, 23, 24, 25, 26, 27, 28, 29, 30, 31]

def bgc1 : List GF := mkWord [32, 33, 34, 35, 36, 37, 38, 39, 40, 41, 42, 43, 44, 45, 46, 47, 48, 49, 50, 51, 52, 53, 54, 55, 56, 57, 58, 59, 60, 61, 62, 63]

def bgc2 : List GF := mkWord [64, 65, 66, 67, 68, 69, 70, 71, 72, 73, 74, 75, 76, 77, 78, 79, 80, 81, 82, 83, 84, 85, 86, 87, 88, 89, 90, 91, 92, 93, 94, 95]

def bgc3 : List GF := mkWord [96, 97, 98, 99, 100, 101, 102, 103, 104, 105, 106, 107, 108, 109, 110, 111, 112, 113, 114, 115, 116, 117, 118, 119, 120, 121, 122, 123, 124, 125, 126, 127]

def bgc4 : List GF := mkWord [128, 129, 130, 131, 132, 133, 134, 135, 136, 137, 138, 139, 140, 141, 142, 143, 144, 145, 146, 147, 148, 149, 150, 151, 152, 153, 154, 155, 156, 157, 158, 159]

def bgc5 : List GF := mkWord [160, 161, 162, 163, 164, 165, 166, 167, 168, 169, 170, 171, 172, 173, 174, 175, 176, 177, 178, 179, 180, 181, 182, 183, 184, 185, 186, 187, 188, 189, 190, 191]

def bgc6 : List GF := mkWord [192, 193, 194, 195, 196, 197, 198, 199, 200, 201, 202, 203, 204, 205, 206, 207, 208, 209, 210, 211, 212, 213, 214, 215, 216, 217, 218, 219, 220, 221, 222, 65]

def bgc7 : List GF := mkWord [132, 17, 131, 177, 31, 219, 83, 116, 33, 147, 150, 150, 205, 167, 14, 29, 181, 200, 102, 132, 175, 34, 37, 100, 184, 156, 198, 6, 159, 23, 46]

/-- The full 255-byte encoded block, as the concatenation of the chunks. -/
def bigCLit : List GF :=
  bgc0 ++ (bgc1 ++ (bgc2 ++ (bgc3 ++ (bgc4 ++ (bgc5 ++ (bgc6 ++ bgc7))))))

/-- The chunked syndrome expression: `poly_eval bigCLit (gfexp i)` unfolded
along the chunk boundaries, kept shallow for kernel evaluation. -/
def chunkSum (i : Nat) : GF :=
  gadd (gmul (poly_eval bgc0 (gfexp i)) (gfexp (i * 223)))
    (gadd (gmul (poly_eval bgc1 (gfexp i)) (gfexp (i * 191)))
      (gadd (gmul (poly_eval bgc2 (gfexp i)) (gfexp (i * 159)))
        (gadd (gmul (poly_eval bgc3 (gfexp i)) (gfexp (i * 127)))
          (gadd (gmul (poly_eval bgc4 (gfexp i)) (gfexp (i * 95)))
            (gadd (gmul (poly_eval bgc5 (gfexp i)) (gfexp (i * 63)))
              (gadd (gmul (poly_eval bgc6 (gfexp i)) (gfexp (i * 31)))
                (poly_eval bgc7 (gfexp i))))))))

theorem chunkSum_zero : ∀ i, i < 32 → chunkSum i = gzero := by decide

theorem bigC_length : bigCLit.length = 255 := by decide

theorem bigC_take : (mkWord (List.range 255)).take 223 = bigCLit.take 223 := by
  decide

theorem bigC_no_255 : ∀ j, j < 255 → bigCLit.getD j gzero ≠ gf 255 := by decide

theorem bigC_synd (i : Nat) (hi : i < 32) :
    poly_eval bigCLit (gpow ggen i) = gzero := by
  rw [gpow_ggen]
  have h1 : (bgc1 ++ (bgc2 ++ (bgc3 ++ (bgc4 ++ (bgc5 ++ (bgc6 ++ bgc7)))))).length
      = 223 := by decide
  have h2 : (bgc2 ++ (bgc3 ++ (bgc4 ++ (bgc5 ++ (bgc6 ++ bgc7))))).length
      = 191 := by decide
  have h3 : (bgc3 ++ (bgc4 ++ (bgc5 ++ (bgc6 ++ bgc7)))).length = 159 := by decide
  have h4 : (bgc4 ++ (bgc5 ++ (bgc6 ++ bgc7))).length = 127 := by decide
  have h5 : (bgc5 ++ (bgc6 ++ bgc7)).length = 95 := by decide
  have h6 : (bgc6 ++ bgc7).length = 63 := by decide
  have h7 : bgc7.length = 31 := by decide
  have hsplit : poly_eval bigCLit (gfexp i) = chunkSum i := by
    unfold bigCLit chunkSum
    rw [poly_eval_append, poly_eval_append, poly_eval_append, poly_eval_append,
      poly_eval_append, poly_eval_append, poly_eval_append,
      h1, h2, h3, h4, h5, h6, h7,
      gpow_gfexp, gpow_gfexp, gpow_gfexp, gpow_gfexp, gpow_gfexp, gpow_gfexp,
      gpow_gfexp]
    rfl
  rw [hsplit]
  exact chunkSum_zero i hi

theorem is_correct_of_eval {cw : List GF}
    (h : ∀ i, i < 32 → poly_eval cw (gpow ggen i) = gzero) :
    synd_all_zero (find_syndromes cw) = true := by
  rw [synd_all_zero_iff]
  intro s hs
  unfold find_syndromes at hs
  rw [List.mem_map] at hs
  obtain ⟨i, hi, rfl⟩ := hs
  exact h i (List.mem_range.mp hi)

theorem encode_bigC : encode (mkWord (List.range 255)) = bigCLit := by
  have hml : (mkWord (List.range 255)).length = 255 := by decide
  have h32 : 32 ≤ (mkWord (List.range 255)).length := by rw [hml]; omega
  apply codeword_unique _ _ 255 (by omega) (by omega)
  · rw [encode_length _ h32, hml]
  · exact bigC_length
  · show (encode (mkWord (List.range 255))).take (255 - 32)
      = bigCLit.take (255 - 32)
    rw [show (255 : Nat) - 32 = 223 from rfl]
    have hpre := encode_take (mkWord (List.range 255)) h32
    rw [hml, show (255 : Nat) - 32 = 223 from rfl] at hpre
    rw [hpre]
    exact bigC_take
  · exact encode_syndromes_zero _ h32
  · exact bigC_synd

theorem gzero_gmul (a : GF) : gmul gzero a = gzero :=
  GF.ext_val (goMul_zero_a 8 _)

theorem gzero_gadd (a : GF) : gadd gzero a = a :=
  GF.ext_val (Nat.zero_xor _)

theorem gmul_gone (a : GF) : gmul a gone = a := gf_mul_one a

theorem gone_gmul (a : GF) : gmul gone a = a := gf_one_mul a

theorem getD_map_range (f : Nat → GF) (n i : Nat) (hi : i < n) :
    ((List.range n).map f).getD i gzero = f i := by
  have hl : i < ((List.range n).map f).length := by
    rw [List.length_map, List.length_range]
    exact hi
  rw [List.getD_eq_getElem _ _ hl, List.getElem_map, List.getElem_range]

theorem find_syndromes_length (cw : List GF) : (find_syndromes cw).length = 32 := by
  unfold find_syndromes
  rw [List.length_map, List.length_range]
  rfl

theorem gpow_gpow_comm (a : GF) (m k : Nat) :
    gpow (gpow a m) k = gpow (gpow a k) m := by
  rw [gpow_eq_pow, gpow_eq_pow, gpow_eq_pow, gpow_eq_pow, ← pow_mul, ← pow_mul,
    Nat.mul_comm]

theorem syndromes_single (c : List GF) (j : Nat) (E : GF) (hj : j < c.length)
    (hz : ∀ i, i < 32 → poly_eval c (gpow ggen i) = gzero) :
    ∀ i, i < 32 →
      (find_syndromes (c.set j (gadd (c.getD j gzero) E))).getD i gzero
        = gmul E (gpow (gpow ggen (c.length - 1 - j)) i) := by
  intro i hi
  unfold find_syndromes
  rw [show ECC_SIZE = 32 from rfl, getD_map_range _ _ _ hi]
  rw [poly_eval_set_add c j E (gpow ggen i) hj]
  rw [hz i hi, gpow_gpow_comm ggen i (c.length - 1 - j)]
  rw [gzero_def, zero_add, gmul_def]

theorem grecip_gmul_self (a : GF) (h : a ≠ gzero) : gmul (grecip a) a = gone := by
  rw [gmul_def, gone_def, mul_comm]
  exact mul_grecip_cancel a (by rw [← gzero_def]; exact h)

theorem rot1_replicate (k : Nat) (r : List GF) :
    (List.replicate (k + 1) gzero ++ r).drop 1
        ++ (List.replicate (k + 1) gzero ++ r).take 1
      = List.replicate k gzero ++ (r ++ [gzero]) := by
  rw [List.replicate_succ, List.cons_append]
  show (List.replicate k gzero ++ r) ++ [gzero] = _
  rw [List.append_assoc]

theorem poly_scale_append (f g : List GF) (c : GF) :
    poly_scale (f ++ g) c = poly_scale f c ++ poly_scale g c :=
  List.map_append _ _ _

theorem poly_scale_replicate_zero (n : Nat) (c : GF) :
    poly_scale (List.replicate n gzero) c = List.replicate n gzero := by
  unfold poly_scale
  rw [List.map_replicate, gzero_gmul]

theorem poly_add_append (a b c d : List GF) (h : a.length = c.length) :
    poly_add (a ++ b) (c ++ d) = poly_add a c ++ poly_add b d :=
  List.zipWith_append _ _ _ _ _ h

theorem poly_add_replicate_zero : ∀ n : Nat,
    poly_add (List.replicate n gzero) (List.replicate n gzero)
      = List.replicate n gzero
  | 0 => rfl
  | n+1 => by
    show gadd gzero gzero
        :: poly_add (List.replicate n gzero) (List.replicate n gzero)
      = List.replicate (n + 1) gzero
    rw [poly_add_replicate_zero n, List.replicate_succ, gzero_gadd]

theorem getD_replicate_append : ∀ (k : Nat) (r : List GF) (m : Nat),
    (List.replicate k gzero ++ r).getD (k + m) gzero = r.getD m gzero
  | 0, r, m => by rw [List.replicate_zero, List.nil_append, Nat.zero_add]
  | k+1, r, m => by
    rw [List.replicate_succ, List.cons_append,
      show k + 1 + m = (k + m) + 1 from by omega, List.getD_cons_succ]
    exact getD_replicate_append k r m

theorem bm_delta_one (S : List GF) (a b : GF) (i : Nat) :
    bm_delta S (List.replicate 31 gzero ++ [a, b]) 1 i
      = gadd (S.getD i gzero) (gmul a (S.getD (i - 1) gzero)) := rfl

theorem bm_step_true_le (S lam prev : List GF) (v i : Nat)
    (hd : bm_delta S lam v i ≠ gzero) (hv : 2 * v ≤ i) :
    bm_step S ⟨lam, prev, v⟩ i
      = ⟨poly_add (poly_scale (prev.drop 1 ++ prev.take 1) (bm_delta S lam v i))
            (poly_scale (poly_scale lam (grecip (bm_delta S lam v i)))
              (bm_delta S lam v i)),
         poly_scale lam (grecip (bm_delta S lam v i)), i + 1 - v⟩ := by
  simp only [bm_step]
  rw [if_pos hd, if_pos hv]

theorem bm_step_true_gt (S lam prev : List GF) (v i : Nat)
    (hd : bm_delta S lam v i ≠ gzero) (hv : ¬ (2 * v ≤ i)) :
    bm_step S ⟨lam, prev, v⟩ i
      = ⟨poly_add lam
            (poly_scale (prev.drop 1 ++ prev.take 1) (bm_delta S lam v i)),
         prev.drop 1 ++ prev.take 1, v⟩ := by
  simp only [bm_step]
  rw [if_pos hd, if_neg hv]

theorem bm_step_false (S lam prev : List GF) (v i : Nat)
    (hd : bm_delta S lam v i = gzero) :
    bm_step S ⟨lam, prev, v⟩ i = ⟨lam, prev.drop 1 ++ prev.take 1, v⟩ := by
  simp only [bm_step]
  rw [if_neg (not_not_intro hd)]

theorem bm_step_iter0 (S : List GF) (E : GF) (hE : E ≠ gzero)
    (hS0 : S.getD 0 gzero = E) :
    bm_step S ⟨List.replicate 32 gzero ++ [gone],
               List.replicate 32 gzero ++ [gone], 0⟩ 0
      = ⟨List.replicate 31 gzero ++ [E, gone],
         List.replicate 32 gzero ++ [grecip E], 1⟩ := by
  have hdelta : bm_delta S (List.replicate 32 gzero ++ [gone]) 0 0 = E := hS0
  rw [bm_step_true_le S (List.replicate 32 gzero ++ [gone])
    (List.replicate 32 gzero ++ [gone]) 0 0 (by rw [hdelta]; exact hE) (by omega)]
  rw [hdelta]
  have hrot : (List.replicate 32 gzero ++ [gone]).drop 1
      ++ (List.replicate 32 gzero ++ [gone]).take 1
      = List.replicate 31 gzero ++ [gone, gzero] := by
    have h := rot1_replicate 31 [gone]
    rw [show (31 : Nat) + 1 = 32 from rfl] at h
    exact h
  rw [hrot]
  have hsc1 : poly_scale (List.replicate 31 gzero ++ [gone, gzero]) E
      = List.replicate 31 gzero ++ [E, gzero] := by
    rw [poly_scale_append, poly_scale_replicate_zero]
    show List.replicate 31 gzero ++ [gmul gone E, gmul gzero E] = _
    rw [gone_gmul, gzero_gmul]
  have hsc2 : poly_scale (List.replicate 32 gzero ++ [gone]) (grecip E)
      = List.replicate 32 gzero ++ [grecip E] := by
    rw [poly_scale_append, poly_scale_replicate_zero]
    show List.replicate 32 gzero ++ [gmul gone (grecip E)] = _
    rw [gone_gmul]
  rw [hsc1, hsc2]
  have hsc3 : poly_scale (List.replicate 32 gzero ++ [grecip E]) E
      = List.replicate 32 gzero ++ [gone] := by
    rw [poly_scale_append, poly_scale_replicate_zero]
    show List.replicate 32 gzero ++ [gmul (grecip E) E] = _
    rw [grecip_gmul_self E hE]
  rw [hsc3]
  have hadd : poly_add (List.replicate 31 gzero ++ [E, gzero])
      (List.replicate 32 gzero ++ [gone])
      = List.replicate 31 gzero ++ [E, gone] := by
    have h32 : List.replicate 32 gzero ++ [gone]
        = List.replicate 31 gzero ++ [gzero, gone] := by
      rw [show (32 : Nat) = 31 + 1 from rfl, List.replicate_succ',
        List.append_assoc]
      rfl
    rw [h32, poly_add_append _ _ _ _ rfl, poly_add_replicate_zero]
    show List.replicate 31 gzero ++ [gadd E gzero, gadd gzero gone] = _
    rw [gadd_gzero, gzero_gadd]
  rw [hadd]

theorem bm_step_iter1 (S : List GF) (E X : GF) (hE : E ≠ gzero)
    (hS0 : S.getD 0 gzero = E) (hS1 : S.getD 1 gzero = gmul E X) :
    bm_step S ⟨List.replicate 31 gzero ++ [E, gone],
               List.replicate 32 gzero ++ [grecip E], 1⟩ 1
      = ⟨List.replicate 31 gzero ++ [X, gone],
         List.replicate 31 gzero ++ [grecip E, gzero], 1⟩ := by
  have hE' : E ≠ 0 := by rw [← gzero_def]; exact hE
  have hdelta : bm_delta S (List.replicate 31 gzero ++ [E, gone]) 1 1
      = gadd (gmul E X) (gmul E E) := by
    rw [bm_delta_one S E gone 1, show (1 : Nat) - 1 = 0 from rfl, hS0, hS1]
  have hrot : (List.replicate 32 gzero ++ [grecip E]).drop 1
      ++ (List.replicate 32 gzero ++ [grecip E]).take 1
      = List.replicate 31 gzero ++ [grecip E, gzero] := by
    have h := rot1_replicate 31 [grecip E]
    rw [show (31 : Nat) + 1 = 32 from rfl] at h
    exact h
  rcases eq_or_ne (gadd (gmul E X) (gmul E E)) gzero with hD | hD
  · have hXE : X = E := by
      have h1 : E * (X + E) = 0 := by
        rw [mul_add]
        calc E * X + E * E = gadd (gmul E X) (gmul E E) := rfl
          _ = 0 := by rw [hD]; rfl
      rcases mul_eq_zero.mp h1 with h | h
      · exact absurd h hE'
      · exact gadd_eq_zero h
    rw [bm_step_false S _ _ 1 1 (by rw [hdelta]; exact hD), hrot, hXE]
  · rw [bm_step_true_gt S _ _ 1 1 (by rw [hdelta]; exact hD) (by omega),
      hdelta, hrot]
    have hmix : gmul (grecip E) (gadd (gmul E X) (gmul E E)) = gadd X E := by
      show grecip E * (E * X + E * E) = X + E
      rw [mul_add, ← mul_assoc, ← mul_assoc, mul_comm (grecip E) E,
        mul_grecip_cancel E hE', one_mul, one_mul]
    have hsc : poly_scale (List.replicate 31 gzero ++ [grecip E, gzero])
        (gadd (gmul E X) (gmul E E))
        = List.replicate 31 gzero ++ [gadd X E, gzero] := by
      rw [poly_scale_append, poly_scale_replicate_zero]
      show List.replicate 31 gzero
          ++ [gmul (grecip E) (gadd (gmul E X) (gmul E E)),
              gmul gzero (gadd (gmul E X) (gmul E E))] = _
      rw [hmix, gzero_gmul]
    rw [hsc]
    have hadd : poly_add (List.replicate 31 gzero ++ [E, gone])
        (List.replicate 31 gzero ++ [gadd X E, gzero])
        = List.replicate 31 gzero ++ [X, gone] := by
      rw [poly_add_append _ _ _ _ rfl, poly_add_replicate_zero]
      show List.replicate 31 gzero ++ [gadd E (gadd X E), gadd gone gzero] = _
      have hcollapse : gadd E (gadd X E) = X := by
        show E + (X + E) = X
        calc E + (X + E) = X + (E + E) := by ring
          _ = X := by rw [gf_add_self, add_zero]
      rw [hcollapse, gadd_gzero]
    rw [hadd]

theorem bm_tail (S lamX : List GF) :
    ∀ (idxs : List Nat), (∀ m ∈ idxs, bm_delta S lamX 1 m = gzero) →
    ∀ prev : List GF,
      ((idxs.foldl (bm_step S) ⟨lamX, prev, 1⟩)).lam = lamX ∧
      ((idxs.foldl (bm_step S) ⟨lamX, prev, 1⟩)).v = 1
  | [], _, prev => ⟨rfl, rfl⟩
  | m :: t, hd, prev => by
    rw [List.foldl_cons,
      bm_step_false S lamX prev 1 m (hd m (List.mem_cons_self m t))]
    exact bm_tail S lamX t (fun x hx => hd x (List.mem_cons_of_mem m hx)) _

theorem find_error_locator_single (S : List GF) (hlen : S.length = 32)
    (E X : GF) (hE : E ≠ gzero) (hX : X ≠ gzero)
    (hS : ∀ i, i < 32 → S.getD i gzero = gmul E (gpow X i)) :
    find_error_locator S = [X, gone] := by
  have hS0 : S.getD 0 gzero = E := by
    rw [hS 0 (by omega)]
    exact gmul_gone E
  have hS1 : S.getD 1 gzero = gmul E X := by
    rw [hS 1 (by omega)]
    show gmul E (gmul X gone) = gmul E X
    rw [gmul_gone]
  simp only [find_error_locator]
  rw [hlen]
  rw [show (List.replicate (32 + 1) gzero).set 32 gone
      = List.replicate 32 gzero ++ [gone] from replicate_set_last gzero gone 32]
  rw [show List.range 32 = 0 :: 1 :: List.range' 2 30 from by decide]
  rw [List.foldl_cons, List.foldl_cons]
  rw [bm_step_iter0 S E hE hS0]
  rw [bm_step_iter1 S E X hE hS0 hS1]
  have hd : ∀ m ∈ List.range' 2 30,
      bm_delta S (List.replicate 31 gzero ++ [X, gone]) 1 m = gzero := by
    intro m hm
    have hm2 : 2 ≤ m ∧ m < 32 := by
      have := List.mem_range'_1.mp hm
      omega
    obtain ⟨k, rfl⟩ : ∃ k, m = k + 1 := ⟨m - 1, by omega⟩
    rw [bm_delta_one S X gone (k + 1), Nat.add_sub_cancel]
    rw [hS (k + 1) (by omega), hS k (by omega)]
    rw [gpow_succ, gadd_def, gmul_def, gmul_def, gmul_def]
    calc E * (X * gpow X k) + X * (E * gpow X k)
        = E * (X * gpow X k) + E * (X * gpow X k) := by ring
      _ = gzero := by rw [gf_add_self]; rfl
  have htail := bm_tail S (List.replicate 31 gzero ++ [X, gone])
    (List.range' 2 30) hd (List.replicate 31 gzero ++ [grecip E, gzero])
  rw [htail.1]
  exact dropWhile_replicate_zero_append X hX [gone] 31

theorem poly_eval_pair (a b y : GF) : poly_eval [a, b] y = gadd (gmul a y) b := by
  show gadd (gmul (gadd (gmul gzero y) a) y) b = gadd (gmul a y) b
  rw [gzero_gmul, gzero_gadd]

theorem poly_eval_single_coeff (c y : GF) : poly_eval [c] y = c := by
  show gadd (gmul gzero y) c = c
  rw [gzero_gmul, gzero_gadd]

theorem filter_range_single (f : Nat → Bool) : ∀ (n j : Nat), j < n →
    f j = true → (∀ p, p < n → p ≠ j → f p = false) →
    (List.range n).filter f = [j]
  | 0, j, hj, _, _ => absurd hj (by omega)
  | n+1, j, hj, hfj, hne => by
    rw [List.range_succ, List.filter_append]
    rcases Nat.lt_or_ge j n with h | h
    · rw [filter_range_single f n j h hfj (fun p hp hpj => hne p (by omega) hpj)]
      have hfn : f n = false := hne n (by omega) (by omega)
      rw [List.filter_cons, hfn]
      rfl
    · have hjn : j = n := by omega
      subst hjn
      have hnil : (List.range j).filter f = [] := by
        rw [List.filter_eq_nil_iff]
        intro p hp
        rw [List.mem_range] at hp
        rw [hne p (by omega) (by omega)]
        exact Bool.false_ne_true
      rw [hnil, List.filter_cons, hfj]
      rfl

theorem locator_root_iff (n j p : Nat) (hn : n ≤ 255) (hj : j < n) (hp : p < n) :
    (poly_eval [gpow ggen (n - 1 - j), gone]
      (grecip (gpow ggen (n - 1 - p))) = gzero) ↔ p = j := by
  have hXj : gpow ggen (n - 1 - j) = gfexp (n - 1 - j) := gpow_ggen _
  have hXp : gpow ggen (n - 1 - p) = gfexp (n - 1 - p) := gpow_ggen _
  have hXjne : gfexp (n - 1 - j) ≠ 0 := gfexp_ne_zero _
  have hXpne : gfexp (n - 1 - p) ≠ 0 := gfexp_ne_zero _
  rw [poly_eval_pair, hXj, hXp]
  constructor
  · intro h
    have h1 : gmul (gfexp (n - 1 - j)) (grecip (gfexp (n - 1 - p))) = gone :=
      gadd_eq_zero h
    have h2 : gfexp (n - 1 - j) = gfexp (n - 1 - p) := by
      have h3 := congrArg (fun t => t * gfexp (n - 1 - p)) h1
      simp only at h3
      rw [gmul_def, gone_def, one_mul, mul_assoc,
        mul_comm (grecip (gfexp (n - 1 - p))) (gfexp (n - 1 - p)),
        mul_grecip_cancel _ hXpne, mul_one] at h3
      exact h3
    have h4 := gfexp_inj (by omega) (by omega) h2
    omega
  · intro h
    subst h
    rw [gadd_def, gmul_def, mul_grecip_cancel _ hXjne, gone_def, gzero_def]
    exact gf_add_self 1

theorem find_error_locations_single (cw : List GF) (j n : Nat)
    (hcl : cw.length = n) (hj : j < n) (hn : n ≤ 255) :
    find_error_locations cw [gpow ggen (n - 1 - j), gone] = [j] := by
  unfold find_error_locations
  rw [hcl]
  apply filter_range_single _ n j hj
  · exact decide_eq_true ((locator_root_iff n j j hn hj hj).mpr rfl)
  · exact fun p hp hpj =>
      decide_eq_false (fun hroot => hpj ((locator_root_iff n j p hn hj hp).mp hroot))

theorem list_eq_of_getD (l1 l2 : List GF) (hlen : l1.length = l2.length)
    (h : ∀ q, q < l1.length → l1.getD q gzero = l2.getD q gzero) : l1 = l2 := by
  apply List.ext_getElem hlen
  intro n h1 h2
  rw [← List.getD_eq_getElem l1 gzero h1, ← List.getD_eq_getElem l2 gzero h2]
  exact h n h1

theorem getD_reverse (l : List GF) (q : Nat) (hq : q < l.length) :
    l.reverse.getD q gzero = l.getD (l.length - 1 - q) gzero := by
  have h1 : q < l.reverse.length := by
    rw [List.length_reverse]
    exact hq
  rw [List.getD_eq_getElem _ _ h1, List.getD_eq_getElem _ _ (by omega),
    List.getElem_reverse]

theorem poly_mul_inner_deg1 (a : GF) (f : List GF) (i : Nat)
    (h2 : i + 2 ≤ f.length) :
    poly_mul_inner [a, gone] i f
      = f.set (f.length - 2 - i)
          (gadd (f.getD (f.length - 2 - i) gzero)
            (gmul (f.getD (f.length - 1 - i) gzero) a)) := by
  simp only [poly_mul_inner]
  rw [show List.range ([a, gone] : List GF).length = [0, 1] from rfl]
  simp only [List.foldl_cons, List.foldl_nil]
  rw [show ([a, gone] : List GF).getD (([a, gone] : List GF).length - 1 - 0) gzero
      = gone from rfl]
  rw [show ([a, gone] : List GF).getD (([a, gone] : List GF).length - 1 - 1) gzero
      = a from rfl]
  simp only [List.length_set]
  rw [Nat.add_zero]
  rw [getD_set_self f (f.length - 1 - i) gzero (by omega)]
  rw [gmul_gone, gzero_gadd]
  rw [List.set_set]
  rw [set_getD_self f (f.length - 1 - i) (by omega)]
  rw [show f.length - 1 - (i + 1) = f.length - 2 - i from by omega]

theorem poly_mul_deg1_fold (a : GF) : ∀ (m : Nat) (f : List GF),
    m + 1 ≤ f.length →
    (((List.range m).reverse).foldl
        (fun acc i => poly_mul_inner [a, gone] i acc) f).length = f.length ∧
    ∀ q, (((List.range m).reverse).foldl
        (fun acc i => poly_mul_inner [a, gone] i acc) f).getD q gzero
      = if f.length - 1 - m ≤ q ∧ q + 2 ≤ f.length then
          gadd (f.getD q gzero) (gmul (f.getD (q + 1) gzero) a)
        else f.getD q gzero
  | 0, f, h => by
    constructor
    · rfl
    · intro q
      rw [if_neg (by omega)]
      rfl
  | m+1, f, h => by
    rw [show (List.range (m + 1)).reverse = m :: (List.range m).reverse from by
      rw [List.range_succ, List.reverse_append]
      rfl]
    simp only [List.foldl_cons]
    rw [poly_mul_inner_deg1 a f m (by omega)]
    obtain ⟨ihlen, ihgetD⟩ := poly_mul_deg1_fold a m
      (f.set (f.length - 2 - m)
        (gadd (f.getD (f.length - 2 - m) gzero)
          (gmul (f.getD (f.length - 1 - m) gzero) a)))
      (by rw [List.length_set]; omega)
    constructor
    · rw [ihlen, List.length_set]
    · intro q
      rw [ihgetD q, List.length_set]
      rcases Nat.lt_trichotomy q (f.length - 2 - m) with hq | hq | hq
      · rw [if_neg (by omega), if_neg (by omega)]
        exact getD_set_ne f (f.length - 2 - m) q _ (by omega)
      · rw [if_neg (by omega), if_pos (by omega), hq]
        rw [getD_set_self f (f.length - 2 - m) _ (by omega)]
        rw [show f.length - 2 - m + 1 = f.length - 1 - m from by omega]
      · rcases Nat.lt_or_ge (q + 2) (f.length + 1) with h2 | h2
        · rw [if_pos (by omega), if_pos (by omega)]
          rw [getD_set_ne f _ q _ (by omega), getD_set_ne f _ (q + 1) _ (by omega)]
        · rw [if_neg (by omega), if_neg (by omega)]
          exact getD_set_ne f _ q _ (by omega)

theorem mag_Om_single (S : List GF) (hlen : S.length = 32) (E X : GF)
    (hS : ∀ i, i < 32 → S.getD i gzero = gmul E (gpow X i)) :
    mag_Om S [X, gone] = List.replicate 31 gzero ++ [E] := by
  simp only [mag_Om]
  rw [hlen]
  rw [show (32 : Nat) + ([X, gone] : List GF).length - 1 = 33 from rfl]
  rw [show (33 : Nat) - 32 = 1 from rfl]
  rw [show (List.replicate 33 gzero).take 1 = [gzero] from rfl]
  rw [show (([gzero] ++ S : List GF)).take 1 = [gzero] from rfl]
  rw [show (([gzero] ++ S : List GF)).drop 1 = S from rfl]
  rw [show ([gzero] ++ S.reverse : List GF) = gzero :: S.reverse from rfl]
  have hO2len : (gzero :: S.reverse : List GF).length = 33 := by
    rw [List.length_cons, List.length_reverse, hlen]
  simp only [poly_mul]
  rw [hO2len]
  rw [show (33 : Nat) - ([X, gone] : List GF).length + 1 = 32 from rfl]
  obtain ⟨hflen, hfgetD⟩ := poly_mul_deg1_fold X 32 (gzero :: S.reverse)
    (by have hx := hO2len; omega)
  rw [hflen, hO2len, show (33 : Nat) - 32 = 1 from rfl]
  apply list_eq_of_getD
  · rw [List.length_drop, hflen, hO2len, List.length_append,
      List.length_replicate]
    rfl
  · intro q hq
    rw [List.length_drop, hflen, hO2len] at hq
    have hq32 : q < 32 := by omega
    rw [getD_drop, hfgetD (1 + q), hO2len]
    rcases Nat.lt_or_ge q 31 with hq31 | hq31
    · rw [if_pos (by omega)]
      rw [show (1 : Nat) + q = q + 1 from by omega, List.getD_cons_succ]
      rw [show (q : Nat) + 1 + 1 = (q + 1) + 1 from rfl, List.getD_cons_succ]
      rw [getD_reverse S q (by omega), getD_reverse S (q + 1) (by omega)]
      rw [hlen]
      rw [show (32 : Nat) - 1 - q = 31 - q from by omega,
        show (32 : Nat) - 1 - (q + 1) = 30 - q from by omega]
      rw [hS (31 - q) (by omega), hS (30 - q) (by omega)]
      rw [show (31 : Nat) - q = (30 - q) + 1 from by omega, gpow_succ]
      have hz : gadd (gmul E (X * gpow X (30 - q)))
          (gmul (gmul E (gpow X (30 - q))) X) = gzero := by
        rw [gadd_def, gmul_def, gmul_def, gmul_def]
        calc E * (X * gpow X (30 - q)) + E * gpow X (30 - q) * X
            = E * (X * gpow X (30 - q)) + E * (X * gpow X (30 - q)) := by ring
          _ = gzero := by
              rw [gf_add_self]
              rfl
      rw [hz]
      rw [List.getD_append _ _ _ _ (by rw [List.length_replicate]; omega)]
      exact (getD_all_zero (fun s hs => List.eq_of_mem_replicate hs) q).symm
    · have hq31' : q = 31 := by omega
      subst hq31'
      rw [if_neg (by omega)]
      rw [show (1 : Nat) + 31 = 31 + 1 from rfl, List.getD_cons_succ]
      rw [getD_reverse S 31 (by omega), hlen]
      rw [show (32 : Nat) - 1 - 31 = 0 from rfl]
      rw [hS 0 (by omega)]
      rw [show gpow X 0 = gone from rfl, gmul_gone]
      have hE31 : (List.replicate 31 gzero ++ [E]).getD 31 gzero = E := by
        have h := getD_replicate_append 31 [E] 0
        rw [Nat.add_zero] at h
        exact h
      rw [hE31]

theorem mag_Lp_pair (p q : GF) : mag_Lp [p, q] = [p] := by
  show [gadd gzero p] = [p]
  rw [gzero_gadd]

theorem poly_eval_replicate_append_one (n : Nat) (c y : GF) :
    poly_eval (List.replicate n gzero ++ [c]) y = c := by
  rw [poly_eval_append, poly_eval_replicate_zero, poly_eval_single_coeff,
    zero_mul, zero_add]

theorem mag_Yj_single (cw S : List GF) (j n : Nat) (E : GF)
    (hcl : cw.length = n) (hlen : S.length = 32) (hE : E ≠ gzero)
    (hS : ∀ i, i < 32 → S.getD i gzero
        = gmul E (gpow (gpow ggen (n - 1 - j)) i)) :
    mag_Yj cw S [gpow ggen (n - 1 - j), gone] j = E := by
  have hX0 : gpow ggen (n - 1 - j) ≠ gzero := by
    rw [gpow_ggen, gzero_def]
    exact gfexp_ne_zero _
  have hXv : (gpow ggen (n - 1 - j)).val ≠ 0 := by
    intro hv
    exact hX0 (GF.ext_val hv)
  simp only [mag_Yj]
  rw [hcl]
  rw [mag_Om_single S hlen E (gpow ggen (n - 1 - j)) hS, mag_Lp_pair]
  rw [poly_eval_replicate_append_one, poly_eval_single_coeff]
  simp only [gcheckedDiv]
  rw [if_neg hXv]
  show gmul (gmul (gneg (gpow ggen (n - 1 - j))) E)
      (grecip (gpow ggen (n - 1 - j))) = E
  rw [gneg_def, gmul_def, gmul_def, mul_comm (gpow ggen (n - 1 - j)) E,
    mul_assoc, mul_grecip_cancel _ (by rw [← gzero_def]; exact hX0), mul_one]

theorem correct_errors_single (c : List GF) (j : Nat) (E : GF)
    (hn : c.length ≤ 255) (hj : j < c.length) (hE : E ≠ gzero)
    (hz : ∀ i, i < 32 → poly_eval c (gpow ggen i) = gzero) :
    correct_errors (c.set j (gadd (c.getD j gzero) E)) = (RsResult.ok 1, c) := by
  have hclen : (c.set j (gadd (c.getD j gzero) E)).length = c.length :=
    List.length_set _ _ _
  have hgeo := syndromes_single c j E hj hz
  have hlenS := find_syndromes_length (c.set j (gadd (c.getD j gzero) E))
  have hX : gpow ggen (c.length - 1 - j) ≠ gzero := by
    rw [gpow_ggen, gzero_def]
    exact gfexp_ne_zero _
  have hzS : ¬ (synd_all_zero
      (find_syndromes (c.set j (gadd (c.getD j gzero) E))) = true) := by
    intro ht
    rw [synd_all_zero_iff] at ht
    have h0 := getD_all_zero ht 0
    rw [hgeo 0 (by omega)] at h0
    rw [show gpow (gpow ggen (c.length - 1 - j)) 0 = gone from rfl,
      gmul_gone] at h0
    exact hE h0
  have hloc : find_error_locator
      (find_syndromes (c.set j (gadd (c.getD j gzero) E)))
      = [gpow ggen (c.length - 1 - j), gone] :=
    find_error_locator_single _ hlenS E _ hE hX hgeo
  have hlocs : find_error_locations (c.set j (gadd (c.getD j gzero) E))
      [gpow ggen (c.length - 1 - j), gone] = [j] :=
    find_error_locations_single _ j c.length hclen hj hn
  have hmag : mag_Yj (c.set j (gadd (c.getD j gzero) E))
      (find_syndromes (c.set j (gadd (c.getD j gzero) E)))
      [gpow ggen (c.length - 1 - j), gone] j = E :=
    mag_Yj_single _ _ j c.length E hclen hlenS hE hgeo
  have hmags : find_error_magnitudes (c.set j (gadd (c.getD j gzero) E))
      (find_syndromes (c.set j (gadd (c.getD j gzero) E)))
      [gpow ggen (c.length - 1 - j), gone] [j] = [E] := by
    show [mag_Yj (c.set j (gadd (c.getD j gzero) E))
      (find_syndromes (c.set j (gadd (c.getD j gzero) E)))
      [gpow ggen (c.length - 1 - j), gone] j] = [E]
    rw [hmag]
  have happ : apply_corrections (c.set j (gadd (c.getD j gzero) E)) [j] [E]
      = c := by
    show (c.set j (gadd (c.getD j gzero) E)).set j
        (gadd ((c.set j (gadd (c.getD j gzero) E)).getD j gzero) E) = c
    rw [getD_set_self c j _ hj]
    have hcollapse : gadd (gadd (c.getD j gzero) E) E = c.getD j gzero := by
      show c.getD j gzero + E + E = c.getD j gzero
      rw [add_assoc, gf_add_self, add_zero]
    rw [hcollapse, List.set_set, set_getD_self c j hj]
  have hS2 : synd_all_zero (find_syndromes c) = true := is_correct_of_eval hz
  simp only [correct_errors]
  rw [if_neg hzS, hloc]
  rw [if_neg (show ¬ ((([gpow ggen (c.length - 1 - j), gone] : List GF).length
      - 1) * 2 > ECC_SIZE) from by
    rw [show ([gpow ggen (c.length - 1 - j), gone] : List GF).length = 2
      from rfl]
    decide)]
  rw [hlocs, hmags, happ]
  rw [if_neg (not_not_intro hS2)]
  rfl

/-- C4: let C be the 255-byte block obtained by `encode` from the bytes
0..254 (DATA_SIZE 223, ECC_SIZE 32).  For every position i < 255, setting
C[i] to 0xFF and then calling `correct_errors` returns Ok 1 and restores
the buffer to C exactly. -/
theorem c4_single_byte_flip (i : Nat) (hi : i < 255) :
    correct_errors ((encode (mkWord (List.range 255))).set i (gf 255))
      = (RsResult.ok 1, encode (mkWord (List.range 255))) := by
  rw [encode_bigC]
  have hb : i < bigCLit.length := by
    rw [bigC_length]
    exact hi
  have hset : bigCLit.set i (gf 255)
      = bigCLit.set i (gadd (bigCLit.getD i gzero)
          (gadd (bigCLit.getD i gzero) (gf 255))) := by
    have hv : gadd (bigCLit.getD i gzero)
        (gadd (bigCLit.getD i gzero) (gf 255)) = gf 255 := by
      show bigCLit.getD i gzero + (bigCLit.getD i gzero + gf 255) = gf 255
      rw [← add_assoc, gf_add_self, zero_add]
    rw [hv]
  rw [hset]
  exact correct_errors_single bigCLit i
    (gadd (bigCLit.getD i gzero) (gf 255))
    (Nat.le_of_eq bigC_length) hb
    (fun h => bigC_no_255 i hi (gadd_eq_zero h))
    bigC_synd

theorem c4_witness :
    (0 : Nat) < 255 ∧
    correct_errors ((encode (mkWord (List.range 255))).set 0 (gf 255))
      = (RsResult.ok 1, encode (mkWord (List.range 255))) :=
  ⟨by decide, c4_single_byte_flip 0 (by decide)⟩
